import Mathlib

/-!
Verification of the Packgine backend's text-processing pipeline
(`src/services/aiService.js` and the file-extraction route).

Strings are modelled as `List Char`; JavaScript's `\s` character class is
modelled by `Char.isWhitespace`.  Every definition is a direct translation
of the corresponding JavaScript function.
-/

namespace Packgine

/-- JS `\s` (whitespace) model. -/
def isWS (c : Char) : Bool := c.isWhitespace

/-- `TextOptimizer.estimateTokens`: `Math.ceil(text.length / 4)`. -/
def estimateTokens (l : List Char) : Nat := (l.length + 3) / 4

/-- JS `text.split('\n')`. -/
def splitLines : List Char → List (List Char)
  | [] => [[]]
  | c :: rest =>
    if c = '\n' then [] :: splitLines rest
    else
      match splitLines rest with
      | [] => [[c]]
      | h :: t => (c :: h) :: t

/-- Join a list of lines with `'\n'` separators (inverse of `splitLines`). -/
def joinNL : List (List Char) → List Char
  | [] => []
  | [l] => l
  | l :: ls => l ++ '\n' :: joinNL ls

/-- Drop a maximal whitespace suffix (second half of JS `trim()`). -/
def dropTrailingWS : List Char → List Char
  | [] => []
  | c :: rest =>
    match dropTrailingWS rest with
    | [] => if isWS c then [] else [c]
    | r :: rs => c :: r :: rs

/-- JS `String.prototype.trim()`. -/
def trim (l : List Char) : List Char := dropTrailingWS (l.dropWhile isWS)

/-- One iteration of the `for (const line of lines)` loop in
`TextOptimizer.chunkText`.  State: emitted chunks, `currentChunk`,
`currentTokens`. -/
def chunkStep (maxTokens : Nat) :
    List (List Char) × List Char × Nat → List Char →
    List (List Char) × List Char × Nat
  | (chunks, currentChunk, currentTokens), line =>
    let lineTokens := estimateTokens line
    if currentTokens + lineTokens > maxTokens ∧ currentChunk.length > 0 then
      (chunks ++ [trim currentChunk], line, lineTokens)
    else
      (chunks,
       currentChunk ++ (if currentChunk.length > 0 then '\n' :: line else line),
       currentTokens + lineTokens)

/-- `TextOptimizer.chunkText` (the `maxTokens` budget is the resolved
`maxChunkSize || this.maxTokens[provider] || 7000`). -/
def chunkText (text : List Char) (maxTokens : Nat) : List (List Char) :=
  if estimateTokens text ≤ maxTokens then [text]
  else
    let st := (splitLines text).foldl (chunkStep maxTokens) ([], [], 0)
    if st.2.1.length > 0 then st.1 ++ [trim st.2.1] else st.1

/-- Sum of the per-line token estimates of a text (the accounting
`chunkText` actually performs; newline separators are not charged). -/
def lineTokenSum (l : List Char) : Nat :=
  ((splitLines l).map estimateTokens).sum

/-! ### Basic lemmas about `splitLines`, `trim` and `lineTokenSum` -/

theorem splitLines_nil : splitLines [] = [[]] := rfl

theorem splitLines_cons_nl (rest : List Char) :
    splitLines ('\n' :: rest) = [] :: splitLines rest := by
  simp [splitLines]

theorem splitLines_ne_nil (l : List Char) : splitLines l ≠ [] := by
  cases l with
  | nil => simp [splitLines]
  | cons c rest =>
    simp only [splitLines]
    split
    · simp
    · split <;> simp

theorem splitLines_decomp (l : List Char) :
    ∃ h t, splitLines l = h :: t := by
  cases hsa : splitLines l with
  | nil => exact absurd hsa (splitLines_ne_nil l)
  | cons h t => exact ⟨h, t, rfl⟩

theorem splitLines_cons_ne {c : Char} (rest : List Char) (hc : c ≠ '\n')
    {h : List Char} {t : List (List Char)} (hht : splitLines rest = h :: t) :
    splitLines (c :: rest) = (c :: h) :: t := by
  unfold splitLines
  rw [if_neg hc, hht]

theorem splitLines_no_nl {l : List Char} (h : '\n' ∉ l) : splitLines l = [l] := by
  induction l with
  | nil => rfl
  | cons c rest ih =>
    have hc : c ≠ '\n' := fun hh => h (hh ▸ List.mem_cons_self c rest)
    have hrest : '\n' ∉ rest := fun hh => h (List.mem_cons_of_mem c hh)
    rw [splitLines_cons_ne rest hc (ih hrest)]

theorem splitLines_append_nl (a b : List Char) :
    splitLines (a ++ '\n' :: b) = splitLines a ++ splitLines b := by
  induction a with
  | nil => simp [splitLines_cons_nl, splitLines_nil]
  | cons c a' ih =>
    by_cases hc : c = '\n'
    · subst hc
      rw [List.cons_append, splitLines_cons_nl, splitLines_cons_nl, ih,
        List.cons_append]
    · obtain ⟨h, t, hht⟩ := splitLines_decomp a'
      have hht' : splitLines (a' ++ '\n' :: b) = h :: (t ++ splitLines b) := by
        rw [ih, hht]; rfl
      rw [List.cons_append, splitLines_cons_ne _ hc hht',
        splitLines_cons_ne _ hc hht]
      rfl

theorem mem_splitLines_no_nl {t : List Char} :
    ∀ l ∈ splitLines t, '\n' ∉ l := by
  induction t with
  | nil =>
    intro l hl
    rw [splitLines_nil] at hl
    simp at hl
    simp [hl]
  | cons c rest ih =>
    intro l hl
    by_cases hc : c = '\n'
    · subst hc
      rw [splitLines_cons_nl] at hl
      rcases List.mem_cons.mp hl with rfl | hl
      · simp
      · exact ih l hl
    · obtain ⟨h, tl, hht⟩ := splitLines_decomp rest
      rw [splitLines_cons_ne rest hc hht] at hl
      rcases List.mem_cons.mp hl with rfl | hl
      · intro hmem
        rcases List.mem_cons.mp hmem with hh | hh
        · exact hc hh.symm
        · exact ih h (hht ▸ List.mem_cons_self h tl) hh
      · exact ih l (hht ▸ List.mem_cons_of_mem h hl)

theorem joinNL_cons_of_ne_nil (l : List Char) {ls : List (List Char)}
    (h : ls ≠ []) : joinNL (l :: ls) = l ++ '\n' :: joinNL ls := by
  cases ls with
  | nil => exact absurd rfl h
  | cons a as => rfl

theorem splitLines_joinNL {ls : List (List Char)} (hne : ls ≠ [])
    (hnl : ∀ l ∈ ls, '\n' ∉ l) : splitLines (joinNL ls) = ls := by
  induction ls with
  | nil => exact absurd rfl hne
  | cons l ls ih =>
    cases ls with
    | nil =>
      exact splitLines_no_nl (hnl l (List.mem_cons_self l []))
    | cons a as =>
      rw [joinNL_cons_of_ne_nil l (by simp), splitLines_append_nl,
        splitLines_no_nl (hnl l (List.mem_cons_self l _)),
        ih (by simp) (fun x hx => hnl x (List.mem_cons_of_mem l hx))]
      rfl

/-- `dropTrailingWS l` is an initial segment of `l`. -/
theorem dropTrailingWS_append (l : List Char) :
    ∃ s, l = dropTrailingWS l ++ s := by
  induction l with
  | nil => exact ⟨[], rfl⟩
  | cons c rest ih =>
    obtain ⟨s, hs⟩ := ih
    cases hdt : dropTrailingWS rest with
    | nil =>
      by_cases hw : isWS c
      · exact ⟨c :: rest, by simp [dropTrailingWS, hdt, hw]⟩
      · refine ⟨s, ?_⟩
        simp only [dropTrailingWS, hdt, hw]
        rw [hdt] at hs
        simpa using hs
    | cons r rs =>
      refine ⟨s, ?_⟩
      simp only [dropTrailingWS, hdt]
      rw [hdt] at hs
      simpa using hs

theorem mem_trim_subset {c : Char} {l : List Char} (h : c ∈ trim l) : c ∈ l := by
  unfold trim at h
  obtain ⟨s, hs⟩ := dropTrailingWS_append (l.dropWhile isWS)
  have h1 : c ∈ l.dropWhile isWS := by
    rw [hs]; exact List.mem_append_left _ h
  exact (List.dropWhile_sublist isWS).mem h1

/-- Running token-count helper: `lineSumAux n l` is the per-line token sum of
`l` when the current (unfinished) line already holds `n` characters. -/
def lineSumAux : Nat → List Char → Nat
  | n, [] => (n + 3) / 4
  | n, c :: rest =>
    if c = '\n' then (n + 3) / 4 + lineSumAux 0 rest else lineSumAux (n + 1) rest

theorem lineSumAux_nil (n : Nat) : lineSumAux n [] = (n + 3) / 4 := rfl

theorem lineSumAux_cons_nl (n : Nat) (rest : List Char) :
    lineSumAux n ('\n' :: rest) = (n + 3) / 4 + lineSumAux 0 rest := by
  simp [lineSumAux]

theorem lineSumAux_cons_ne {c : Char} (hc : c ≠ '\n') (n : Nat)
    (rest : List Char) : lineSumAux n (c :: rest) = lineSumAux (n + 1) rest := by
  simp [lineSumAux, hc]

theorem lineSumAux_eq (l : List Char) : ∀ n : Nat,
    lineSumAux n l =
      (n + ((splitLines l).headD []).length + 3) / 4 +
        (((splitLines l).tail).map estimateTokens).sum := by
  induction l with
  | nil => intro n; simp [lineSumAux_nil, splitLines_nil]
  | cons c rest ih =>
    intro n
    obtain ⟨h, t, hht⟩ := splitLines_decomp rest
    by_cases hc : c = '\n'
    · subst hc
      rw [lineSumAux_cons_nl, splitLines_cons_nl, ih 0]
      simp [hht, estimateTokens]
    · rw [lineSumAux_cons_ne hc, splitLines_cons_ne rest hc hht, ih (n + 1)]
      simp only [hht, List.headD_cons, List.tail_cons, List.length_cons]
      ring_nf

theorem lineTokenSum_eq_aux (l : List Char) : lineTokenSum l = lineSumAux 0 l := by
  rw [lineSumAux_eq l 0]
  obtain ⟨h, t, hht⟩ := splitLines_decomp l
  simp [lineTokenSum, hht, estimateTokens]

theorem lineSumAux_mono (l : List Char) :
    ∀ {n m : Nat}, n ≤ m → lineSumAux n l ≤ lineSumAux m l := by
  induction l with
  | nil => intro n m h; rw [lineSumAux_nil, lineSumAux_nil]; omega
  | cons c rest ih =>
    intro n m h
    by_cases hc : c = '\n'
    · subst hc
      rw [lineSumAux_cons_nl, lineSumAux_cons_nl]
      have : (n + 3) / 4 ≤ (m + 3) / 4 := by omega
      omega
    · rw [lineSumAux_cons_ne hc, lineSumAux_cons_ne hc]
      exact ih (by omega)

theorem lineSumAux_subadd (l : List Char) :
    ∀ n m : Nat, lineSumAux (n + m) l ≤ (n + 3) / 4 + lineSumAux m l := by
  induction l with
  | nil =>
    intro n m
    rw [lineSumAux_nil, lineSumAux_nil]
    omega
  | cons c rest ih =>
    intro n m
    by_cases hc : c = '\n'
    · subst hc
      rw [lineSumAux_cons_nl, lineSumAux_cons_nl]
      have : (n + m + 3) / 4 ≤ (n + 3) / 4 + (m + 3) / 4 := by omega
      omega
    · rw [lineSumAux_cons_ne hc, lineSumAux_cons_ne hc]
      have := ih n (m + 1)
      have heq : n + m + 1 = n + (m + 1) := by omega
      rw [heq]
      exact this

theorem lineSumAux_le_cons (c : Char) (l : List Char) (n : Nat) :
    lineSumAux n l ≤ lineSumAux n (c :: l) := by
  by_cases hc : c = '\n'
  · subst hc
    rw [lineSumAux_cons_nl]
    have := lineSumAux_subadd l n 0
    simpa using this
  · rw [lineSumAux_cons_ne hc]
    exact lineSumAux_mono l (by omega)

theorem lineSumAux_base_le (l : List Char) (n : Nat) :
    (n + 3) / 4 ≤ lineSumAux n l := by
  induction l generalizing n with
  | nil => rw [lineSumAux_nil]
  | cons c rest ih =>
    by_cases hc : c = '\n'
    · subst hc; rw [lineSumAux_cons_nl]; omega
    · rw [lineSumAux_cons_ne hc]
      calc (n + 3) / 4 ≤ (n + 1 + 3) / 4 := by omega
        _ ≤ lineSumAux (n + 1) rest := ih (n + 1)

theorem lineSumAux_le_append (l l₂ : List Char) :
    ∀ n : Nat, lineSumAux n l ≤ lineSumAux n (l ++ l₂) := by
  induction l with
  | nil => intro n; exact lineSumAux_base_le l₂ n
  | cons c rest ih =>
    intro n
    by_cases hc : c = '\n'
    · subst hc
      rw [List.cons_append, lineSumAux_cons_nl, lineSumAux_cons_nl]
      exact Nat.add_le_add_left (ih 0) _
    · rw [List.cons_append, lineSumAux_cons_ne hc, lineSumAux_cons_ne hc]
      exact ih (n + 1)

theorem lineSumAux_dropWhile_le (p : Char → Bool) (l : List Char) :
    lineSumAux 0 (l.dropWhile p) ≤ lineSumAux 0 l := by
  induction l with
  | nil => simp
  | cons c rest ih =>
    by_cases hp : p c
    · rw [List.dropWhile_cons_of_pos hp]
      exact le_trans ih (lineSumAux_le_cons c rest 0)
    · rw [List.dropWhile_cons_of_neg hp]

theorem lineTokenSum_trim_le (l : List Char) :
    lineTokenSum (trim l) ≤ lineTokenSum l := by
  rw [lineTokenSum_eq_aux, lineTokenSum_eq_aux]
  unfold trim
  obtain ⟨s, hs⟩ := dropTrailingWS_append (l.dropWhile isWS)
  calc lineSumAux 0 (dropTrailingWS (l.dropWhile isWS))
      ≤ lineSumAux 0 (dropTrailingWS (l.dropWhile isWS) ++ s) :=
        lineSumAux_le_append _ _ 0
    _ = lineSumAux 0 (l.dropWhile isWS) := by rw [← hs]
    _ ≤ lineSumAux 0 l := lineSumAux_dropWhile_le _ _

theorem lineTokenSum_append_nl (a b : List Char) (hb : '\n' ∉ b) :
    lineTokenSum (a ++ '\n' :: b) = lineTokenSum a + estimateTokens b := by
  unfold lineTokenSum
  rw [splitLines_append_nl, splitLines_no_nl hb]
  simp

theorem lineTokenSum_single {l : List Char} (h : '\n' ∉ l) :
    lineTokenSum l = estimateTokens l := by
  unfold lineTokenSum
  rw [splitLines_no_nl h]
  simp

theorem trim_no_nl {l : List Char} (h : '\n' ∉ l) : '\n' ∉ trim l :=
  fun hmem => h (mem_trim_subset hmem)

/-! ### Chunker invariants -/

/-- The chunking loop's invariant for the token accounting of
`currentChunk`: the running `currentTokens` equals the per-line token sum of
the chunk, and either the accounting is within budget or the chunk is a
single (possibly over-long) line. -/
def ChunkBudgetInv (maxTokens : Nat)
    (st : List (List Char) × List Char × Nat) : Prop :=
  st.2.2 = lineTokenSum st.2.1 ∧
  (st.2.2 ≤ maxTokens ∨ '\n' ∉ st.2.1) ∧
  ∀ c ∈ st.1, lineTokenSum c ≤ maxTokens ∨ '\n' ∉ c

theorem lineTokenSum_nil : lineTokenSum [] = 0 := rfl

theorem trim_chunk_ok {cur : List Char} {tok maxTokens : Nat}
    (h1 : tok = lineTokenSum cur) (h2 : tok ≤ maxTokens ∨ '\n' ∉ cur) :
    lineTokenSum (trim cur) ≤ maxTokens ∨ '\n' ∉ trim cur := by
  rcases h2 with h2 | h2
  · exact Or.inl (le_trans (lineTokenSum_trim_le cur) (h1 ▸ h2))
  · exact Or.inr (trim_no_nl h2)

theorem chunkStep_budget_inv (maxTokens : Nat)
    (st : List (List Char) × List Char × Nat) (line : List Char)
    (hline : '\n' ∉ line) (hinv : ChunkBudgetInv maxTokens st) :
    ChunkBudgetInv maxTokens (chunkStep maxTokens st line) := by
  obtain ⟨chunks, cur, tok⟩ := st
  obtain ⟨h1, h2, h3⟩ := hinv
  simp only [ChunkBudgetInv] at h1 h2 h3 ⊢
  by_cases hcond : tok + estimateTokens line > maxTokens ∧ cur.length > 0
  · simp only [chunkStep, if_pos hcond]
    refine ⟨(lineTokenSum_single hline).symm, Or.inr hline, ?_⟩
    intro c hc
    rcases List.mem_append.mp hc with hc | hc
    · exact h3 c hc
    · rcases List.mem_singleton.mp hc with rfl
      exact trim_chunk_ok h1 h2
  · simp only [chunkStep, if_neg hcond]
    by_cases hcur : cur.length > 0
    · have hle : tok + estimateTokens line ≤ maxTokens := by
        rcases Decidable.not_and_iff_or_not.mp hcond with h | h
        · omega
        · exact absurd hcur h
      have hcurne : cur ≠ [] := by
        intro hh; rw [hh] at hcur; simp at hcur
      refine ⟨?_, Or.inl hle, h3⟩
      rw [if_pos hcur, lineTokenSum_append_nl cur line hline, ← h1]
    · have hnil : cur = [] := by
        cases cur with
        | nil => rfl
        | cons a t => simp at hcur
      subst hnil
      rw [if_neg hcur]
      refine ⟨?_, Or.inr (by simpa using hline), h3⟩
      rw [lineTokenSum_nil] at h1
      rw [List.nil_append, lineTokenSum_single hline, h1, Nat.zero_add]

theorem chunkFold_budget_inv (maxTokens : Nat) :
    ∀ (lines : List (List Char)) (st : List (List Char) × List Char × Nat),
      (∀ l ∈ lines, '\n' ∉ l) → ChunkBudgetInv maxTokens st →
      ChunkBudgetInv maxTokens (lines.foldl (chunkStep maxTokens) st) := by
  intro lines
  induction lines with
  | nil => intro st _ h; exact h
  | cons l rest ih =>
    intro st hl hinv
    rw [List.foldl_cons]
    exact ih _ (fun x hx => hl x (List.mem_cons_of_mem l hx))
      (chunkStep_budget_inv maxTokens st l (hl l (List.mem_cons_self l rest)) hinv)

/-- C1 (amended): every chunk produced by `chunkText` either fits the budget
by its own estimate, or its per-line token estimates sum to at most the
budget (the newline separators joining its lines are not charged by the
loop's accounting, so the chunk's own estimate may exceed the budget), or it
consists of a single — possibly over-long — line, which is kept whole. -/
theorem chunkText_token_budget (text : List Char) (maxTokens : Nat)
    (hpos : 0 < maxTokens) :
    ∀ c ∈ chunkText text maxTokens,
      estimateTokens c ≤ maxTokens ∨ lineTokenSum c ≤ maxTokens ∨ '\n' ∉ c := by
  intro c hc
  unfold chunkText at hc
  by_cases hfast : estimateTokens text ≤ maxTokens
  · rw [if_pos hfast] at hc
    rcases List.mem_singleton.mp hc with rfl
    exact Or.inl hfast
  · rw [if_neg hfast] at hc
    have hinv := chunkFold_budget_inv maxTokens (splitLines text) ([], [], 0)
      (mem_splitLines_no_nl) ⟨rfl, Or.inl (Nat.zero_le _), by simp⟩
    set st := (splitLines text).foldl (chunkStep maxTokens) ([], [], 0) with hst
    obtain ⟨h1, h2, h3⟩ := hinv
    by_cases hcur : st.2.1.length > 0
    · rw [if_pos hcur] at hc
      rcases List.mem_append.mp hc with hc | hc
      · rcases h3 c hc with h | h
        · exact Or.inr (Or.inl h)
        · exact Or.inr (Or.inr h)
      · rcases List.mem_singleton.mp hc with rfl
        rcases trim_chunk_ok h1 h2 with h | h
        · exact Or.inr (Or.inl h)
        · exact Or.inr (Or.inr h)
    · rw [if_neg hcur] at hc
      rcases h3 c hc with h | h
      · exact Or.inr (Or.inl h)
      · exact Or.inr (Or.inr h)

/-- C1, as stated in the spec, is false: with budget 2, the text
`"aaaa\nbbbb\ncccc"` yields the chunk `"aaaa\nbbbb"`, which spans two lines
(each individually within budget) yet has estimated token count
`ceil(9/4) = 3 > 2`, because the loop's accounting does not charge the
newline separator. -/
theorem chunkText_token_budget_counterexample :
    ¬ ∀ c ∈ chunkText ("aaaa\nbbbb\ncccc".data) 2,
        estimateTokens c ≤ 2 ∨ '\n' ∉ c := by decide

theorem chunkText_token_budget_witness :
    0 < 2 ∧ ∀ c ∈ chunkText ("aaaa\nbbbb\ncccc".data) 2,
      estimateTokens c ≤ 2 ∨ lineTokenSum c ≤ 2 ∨ '\n' ∉ c :=
  ⟨by decide, chunkText_token_budget ("aaaa\nbbbb\ncccc".data) 2 (by decide)⟩

/-! ### Chunker line preservation (C2) -/

/-- A line that is nonempty and neither starts nor ends with whitespace. -/
def CleanEnds (l : List Char) : Prop :=
  l ≠ [] ∧ isWS (l.headD ' ') = false ∧ isWS (l.getLastD ' ') = false

instance : DecidablePred CleanEnds := fun l => by
  unfold CleanEnds; infer_instance

theorem getLastD_concat (l : List Char) (a d : Char) :
    (l ++ [a]).getLastD d = a := by
  induction l generalizing d with
  | nil => rfl
  | cons c l' ih => rw [List.cons_append, List.getLastD_cons]; exact ih c

theorem dropTrailingWS_cons_of_ne_nil {rest : List Char} (c : Char)
    (h : dropTrailingWS rest ≠ []) :
    dropTrailingWS (c :: rest) = c :: dropTrailingWS rest := by
  cases hdt : dropTrailingWS rest with
  | nil => exact absurd hdt h
  | cons r rs => simp [dropTrailingWS, hdt]

theorem dropTrailingWS_concat (l : List Char) {a : Char}
    (ha : isWS a = false) : dropTrailingWS (l ++ [a]) = l ++ [a] := by
  induction l with
  | nil => simp [dropTrailingWS, ha]
  | cons c l' ih =>
    rw [List.cons_append, dropTrailingWS_cons_of_ne_nil c (by rw [ih]; simp), ih]

theorem trim_of_cleanEnds {l : List Char} (h : CleanEnds l) : trim l = l := by
  obtain ⟨hne, hh, hl⟩ := h
  rcases List.eq_nil_or_concat l with rfl | ⟨L, b, rfl⟩
  · exact absurd rfl hne
  · simp only [List.concat_eq_append] at hne hh hl ⊢
    have hb : isWS b = false := by rwa [getLastD_concat] at hl
    obtain ⟨a, t, hat⟩ : ∃ a t, L ++ [b] = a :: t := by
      cases L with
      | nil => exact ⟨b, [], rfl⟩
      | cons x xs => exact ⟨x, xs ++ [b], rfl⟩
    have hha : isWS a = false := by rw [hat] at hh; simpa using hh
    unfold trim
    rw [hat, List.dropWhile_cons_of_neg (by simp [hha]), ← hat,
      dropTrailingWS_concat L hb]

theorem cleanEnds_getLastD_any {l : List Char} (hne : l ≠ []) (d d' : Char) :
    l.getLastD d = l.getLastD d' := by
  cases l with
  | nil => exact absurd rfl hne
  | cons a t => rw [List.getLastD_cons, List.getLastD_cons]

theorem getLastD_append_right {xs ys : List Char} (hys : ys ≠ []) (d : Char) :
    (xs ++ ys).getLastD d = ys.getLastD d := by
  induction xs generalizing d with
  | nil => rfl
  | cons a xs' ih =>
    rw [List.cons_append, List.getLastD_cons, ih a]
    exact cleanEnds_getLastD_any hys a d

theorem cleanEnds_append_nl {cur line : List Char} (hc : CleanEnds cur)
    (hl : CleanEnds line) : CleanEnds (cur ++ '\n' :: line) := by
  obtain ⟨hne, hh, _⟩ := hc
  obtain ⟨hne', _, hlast'⟩ := hl
  refine ⟨by simp, ?_, ?_⟩
  · cases cur with
    | nil => exact absurd rfl hne
    | cons a t => simpa using hh
  · rw [show cur ++ '\n' :: line = (cur ++ ['\n']) ++ line by simp,
      getLastD_append_right hne']
    exact hlast'

/-- The line sequence represented by the chunking loop's state: the lines of
the emitted chunks followed by the lines of the pending `currentChunk`. -/
def chunkStateLines (st : List (List Char) × List Char × Nat) :
    List (List Char) :=
  st.1.flatMap splitLines ++ (if st.2.1.isEmpty then [] else splitLines st.2.1)

theorem chunkStep_lines (maxTokens : Nat)
    (st : List (List Char) × List Char × Nat) (line : List Char)
    (hnl : '\n' ∉ line) (hcl : CleanEnds line)
    (hK : st.2.1 = [] ∨ CleanEnds st.2.1) :
    chunkStateLines (chunkStep maxTokens st line) = chunkStateLines st ++ [line] ∧
    ((chunkStep maxTokens st line).2.1 = [] ∨
      CleanEnds (chunkStep maxTokens st line).2.1) := by
  obtain ⟨chunks, cur, tok⟩ := st
  by_cases hcond : tok + estimateTokens line > maxTokens ∧ cur.length > 0
  · have hcurne : cur ≠ [] := by
      intro hh; rw [hh] at hcond; simp at hcond
    have hcE : CleanEnds cur := by
      rcases hK with h | h
      · exact absurd h hcurne
      · exact h
    simp only [chunkStep, if_pos hcond]
    constructor
    · simp only [chunkStateLines, trim_of_cleanEnds hcE]
      rw [List.flatMap_append]
      simp only [List.flatMap_cons, List.flatMap_nil, List.append_nil]
      rw [if_neg (by simpa using hcl.1), if_neg (by simpa using hcurne),
        splitLines_no_nl hnl]
    · exact Or.inr hcl
  · simp only [chunkStep, if_neg hcond]
    by_cases hcur : cur.length > 0
    · have hcurne : cur ≠ [] := by
        intro hh; rw [hh] at hcur; simp at hcur
      have hcE : CleanEnds cur := by
        rcases hK with h | h
        · exact absurd h hcurne
        · exact h
      rw [if_pos hcur]
      constructor
      · simp only [chunkStateLines]
        rw [if_neg (by simp), if_neg (by simpa using hcurne),
          splitLines_append_nl, splitLines_no_nl hnl, List.append_assoc]
      · exact Or.inr (cleanEnds_append_nl hcE hcl)
    · have hnil : cur = [] := by
        cases cur with
        | nil => rfl
        | cons a t => simp at hcur
      subst hnil
      rw [if_neg hcur]
      constructor
      · simp only [chunkStateLines, List.nil_append]
        rw [if_neg (by simpa using hcl.1), splitLines_no_nl hnl]
        simp
      · exact Or.inr (by simpa using hcl)

theorem chunkFold_lines (maxTokens : Nat) :
    ∀ (lines : List (List Char)) (st : List (List Char) × List Char × Nat),
      (∀ l ∈ lines, '\n' ∉ l ∧ CleanEnds l) →
      (st.2.1 = [] ∨ CleanEnds st.2.1) →
      chunkStateLines (lines.foldl (chunkStep maxTokens) st) =
          chunkStateLines st ++ lines ∧
        ((lines.foldl (chunkStep maxTokens) st).2.1 = [] ∨
          CleanEnds (lines.foldl (chunkStep maxTokens) st).2.1) := by
  intro lines
  induction lines with
  | nil => intro st _ hK; exact ⟨by simp, hK⟩
  | cons l rest ih =>
    intro st hl hK
    obtain ⟨hnl, hcl⟩ := hl l (List.mem_cons_self l rest)
    obtain ⟨hstep, hK'⟩ := chunkStep_lines maxTokens st l hnl hcl hK
    rw [List.foldl_cons]
    obtain ⟨hrec, hK''⟩ := ih (chunkStep maxTokens st l)
      (fun x hx => hl x (List.mem_cons_of_mem l hx)) hK'
    refine ⟨?_, hK''⟩
    rw [hrec, hstep, List.append_assoc]
    rfl

/-- C2 (amended): if every line of the input is nonempty and neither starts
nor ends with whitespace, concatenating the chunks' line sequences in order
reproduces the input's line sequence exactly; and whenever the whole input's
estimate fits the budget, exactly one chunk is returned and it equals the
input.  (In general the `trim()` applied to each emitted chunk can drop or
shorten whitespace-carrying boundary lines.) -/
theorem chunkText_lines_exact (text : List Char) (maxTokens : Nat)
    (hpos : 0 < maxTokens) :
    ((∀ l ∈ splitLines text, CleanEnds l) →
      (chunkText text maxTokens).flatMap splitLines = splitLines text) ∧
    (estimateTokens text ≤ maxTokens → chunkText text maxTokens = [text]) := by
  constructor
  · intro hclean
    unfold chunkText
    by_cases hfast : estimateTokens text ≤ maxTokens
    · rw [if_pos hfast]; simp
    · rw [if_neg hfast]
      have hall : ∀ l ∈ splitLines text, '\n' ∉ l ∧ CleanEnds l :=
        fun l hl => ⟨mem_splitLines_no_nl l hl, hclean l hl⟩
      obtain ⟨hlines, hK⟩ := chunkFold_lines maxTokens (splitLines text)
        ([], [], 0) hall (Or.inl rfl)
      set st := (splitLines text).foldl (chunkStep maxTokens) ([], [], 0)
        with hst
      have hbase : chunkStateLines st = splitLines text := by
        rw [hlines]; rfl
      by_cases hcur : st.2.1.length > 0
      · have hcurne : st.2.1 ≠ [] := by
          intro hh; rw [hh] at hcur; simp at hcur
        have hcE : CleanEnds st.2.1 := by
          rcases hK with h | h
          · exact absurd h hcurne
          · exact h
        rw [if_pos hcur, ← hbase]
        simp only [chunkStateLines]
        rw [List.flatMap_append]
        simp only [List.flatMap_cons, List.flatMap_nil, List.append_nil]
        rw [trim_of_cleanEnds hcE, if_neg (by simpa using hcurne)]
      · have hnil : st.2.1 = [] := by
          cases hc : st.2.1 with
          | nil => rfl
          | cons a t => rw [hc] at hcur; simp at hcur
        rw [if_neg hcur, ← hbase]
        simp only [chunkStateLines, hnil]
        simp
  · intro hfit
    unfold chunkText
    rw [if_pos hfit]

/-- C2, as stated in the spec, is false: with budget 1 and input `"\naaaa"`
(an empty first line), `chunkText` returns the single chunk `"aaaa"` — the
empty line is lost, so the concatenated chunk lines do not reproduce the
input's line sequence. -/
theorem chunkText_lines_counterexample :
    (chunkText ("\naaaa".data) 1).flatMap splitLines ≠
      splitLines ("\naaaa".data) := by decide

theorem chunkText_lines_exact_witness :
    (chunkText ("dddd\neeee\nffff".data) 2).flatMap splitLines =
      splitLines ("dddd\neeee\nffff".data) :=
  (chunkText_lines_exact ("dddd\neeee\nffff".data) 2 (by decide)).1 (by decide)

/-! ### Relevance filter: `TextOptimizer.extractProductSections` (C9) -/

/-- JS `String.prototype.toLowerCase()` (ASCII model). -/
def toLowerJS (l : List Char) : List Char := l.map Char.toLower

/-- Whether `n` is an initial segment of `hay`. -/
def startsWith : List Char → List Char → Bool
  | [], _ => true
  | _ :: _, [] => false
  | a :: as, b :: bs => a = b && startsWith as bs

/-- JS `String.prototype.includes` (substring containment). -/
def containsSub (n : List Char) : List Char → Bool
  | [] => n.isEmpty
  | c :: rest => startsWith n (c :: rest) || containsSub n rest

/-- The keyword list of `TextOptimizer.extractProductSections`. -/
def productKeywords : List (List Char) :=
  ["product".data, "bottle".data, "jar".data, "cap".data, "container".data,
   "packaging".data, "ml".data, "oz".data, "liter".data, "gallon".data,
   "gram".data, "kg".data, "pound".data,
   "material".data, "plastic".data, "glass".data, "aluminum".data, "steel".data,
   "price".data, "cost".data, "$".data, "€".data, "£".data, "USD".data,
   "EUR".data,
   "specification".data, "dimension".data, "size".data, "height".data,
   "width".data,
   "minimum order".data, "MOQ".data, "quantity".data, "wholesale".data,
   "certification".data, "FDA".data, "ISO".data, "compliant".data,
   "color".data, "transparent".data, "opaque".data, "clear".data, "amber".data]

/-- `hasProductKeyword`: the lower-cased line contains some lower-cased
keyword. -/
def relevantLine (l : List Char) : Bool :=
  productKeywords.any (fun k => containsSub (toLowerJS k) (toLowerJS l))

/-- Indices of the context window around a relevant line `i`:
`Math.max(0, i-1)` through `Math.min(lines.length-1, i+1)`, inclusive. -/
def ctxIdxs (n i : Nat) : List Nat :=
  List.range' (i - 1) (min (n - 1) (i + 1) + 1 - (i - 1))

/-- `if (!seen.includes(x)) seen.push(x)` — first-occurrence accumulation,
also the behavior of `[...new Set(xs)]`. -/
def pushUnique {α : Type} [DecidableEq α] (acc : List α) (x : α) : List α :=
  if x ∈ acc then acc else acc ++ [x]

/-- The lines of the context window around index `i`. -/
def windowElems (lines : List (List Char)) (i : Nat) : List (List Char) :=
  (ctxIdxs lines.length i).map (fun j => lines.getD j [])

/-- The `productLines` accumulation loop of `extractProductSections`. -/
def psLoop (lines : List (List Char)) : List (List Char) :=
  (List.range lines.length).foldl
    (fun acc i =>
      if relevantLine (lines.getD i []) then
        (windowElems lines i).foldl pushUnique acc
      else acc) []

/-- All context-window lines of all relevant indices, in order, with
duplicates kept. -/
def concatWindows (lines : List (List Char)) : List (List Char) :=
  (List.range lines.length).flatMap
    (fun i => if relevantLine (lines.getD i []) then windowElems lines i else [])

/-- `TextOptimizer.extractProductSections`. -/
def extractProductSections (text : List Char) : List Char :=
  let lines := splitLines text
  let productLines := psLoop lines
  if productLines.length > 0 then joinNL productLines else text

theorem mem_pushUnique {α : Type} [DecidableEq α] {acc : List α} {y x : α} :
    x ∈ pushUnique acc y ↔ x ∈ acc ∨ x = y := by
  unfold pushUnique
  by_cases h : y ∈ acc
  · rw [if_pos h]
    constructor
    · exact Or.inl
    · rintro (hx | rfl)
      · exact hx
      · exact h
  · rw [if_neg h]
    simp

theorem mem_foldl_pushUnique {α : Type} [DecidableEq α] :
    ∀ (ys : List α) (acc : List α) (x : α),
      x ∈ ys.foldl pushUnique acc ↔ x ∈ acc ∨ x ∈ ys := by
  intro ys
  induction ys with
  | nil => intro acc x; simp
  | cons y ys ih =>
    intro acc x
    rw [List.foldl_cons, ih, mem_pushUnique]
    simp only [List.mem_cons]
    tauto

theorem nodup_pushUnique {α : Type} [DecidableEq α] {acc : List α}
    (h : acc.Nodup) (y : α) : (pushUnique acc y).Nodup := by
  unfold pushUnique
  by_cases hy : y ∈ acc
  · rwa [if_pos hy]
  · rw [if_neg hy]
    simpa [List.nodup_append] using ⟨h, hy⟩

theorem nodup_foldl_pushUnique {α : Type} [DecidableEq α] :
    ∀ (ys : List α) (acc : List α), acc.Nodup →
      (ys.foldl pushUnique acc).Nodup := by
  intro ys
  induction ys with
  | nil => intro acc h; exact h
  | cons y ys ih =>
    intro acc h
    rw [List.foldl_cons]
    exact ih _ (nodup_pushUnique h y)

theorem foldl_pushUnique_sublist {α : Type} [DecidableEq α] :
    ∀ (ys : List α) (acc : List α),
      ∃ zs, ys.foldl pushUnique acc = acc ++ zs ∧ zs.Sublist ys := by
  intro ys
  induction ys with
  | nil => intro acc; exact ⟨[], by simp, List.Sublist.refl []⟩
  | cons y ys ih =>
    intro acc
    rw [List.foldl_cons]
    by_cases hy : y ∈ acc
    · have hstep : pushUnique acc y = acc := by
        unfold pushUnique; rw [if_pos hy]
      rw [hstep]
      obtain ⟨zs, hz, hsub⟩ := ih acc
      exact ⟨zs, hz, hsub.cons y⟩
    · have hstep : pushUnique acc y = acc ++ [y] := by
        unfold pushUnique; rw [if_neg hy]
      rw [hstep]
      obtain ⟨zs, hz, hsub⟩ := ih (acc ++ [y])
      exact ⟨y :: zs, by rw [hz]; simp, hsub.cons₂ y⟩

theorem foldl_if_pushUnique_eq :
    ∀ (idxs : List Nat) (acc : List (List Char)) (rel : Nat → Bool)
      (w : Nat → List (List Char)),
      idxs.foldl (fun acc i => if rel i then (w i).foldl pushUnique acc else acc)
          acc =
        (idxs.flatMap (fun i => if rel i then w i else [])).foldl pushUnique
          acc := by
  intro idxs
  induction idxs with
  | nil => intro acc rel w; rfl
  | cons i idxs ih =>
    intro acc rel w
    rw [List.foldl_cons, List.flatMap_cons, List.foldl_append, ih]
    by_cases hi : rel i
    · rw [if_pos hi, if_pos hi]
    · rw [if_neg hi, if_neg hi]
      rfl

theorem psLoop_eq (lines : List (List Char)) :
    psLoop lines = (concatWindows lines).foldl pushUnique [] := by
  unfold psLoop concatWindows
  exact foldl_if_pushUnique_eq (List.range lines.length) [] _ _

theorem mem_psLoop_iff (lines : List (List Char)) (x : List Char) :
    x ∈ psLoop lines ↔ x ∈ concatWindows lines := by
  rw [psLoop_eq, mem_foldl_pushUnique]
  simp

theorem mem_ctxIdxs {n i j : Nat} (hi : i < n) :
    j ∈ ctxIdxs n i ↔ i - 1 ≤ j ∧ j ≤ min (n - 1) (i + 1) := by
  unfold ctxIdxs
  rw [List.mem_range'_1]
  omega

theorem mem_concatWindows_of_window {lines : List (List Char)} {i j : Nat}
    (hi : i < lines.length)
    (hrel : relevantLine (lines.getD i []) = true)
    (hj : j ∈ ctxIdxs lines.length i) :
    lines.getD j [] ∈ concatWindows lines := by
  unfold concatWindows
  rw [List.mem_flatMap]
  refine ⟨i, List.mem_range.mpr hi, ?_⟩
  rw [if_pos hrel]
  unfold windowElems
  exact List.mem_map_of_mem _ hj

theorem mem_psLoop_lines {lines : List (List Char)} {x : List Char}
    (hx : x ∈ psLoop lines) : x ∈ lines ∨ x = [] := by
  rw [mem_psLoop_iff] at hx
  unfold concatWindows at hx
  rw [List.mem_flatMap] at hx
  obtain ⟨i, _, hmem⟩ := hx
  by_cases hrel : relevantLine (lines.getD i []) = true
  · rw [if_pos hrel] at hmem
    unfold windowElems at hmem
    rw [List.mem_map] at hmem
    obtain ⟨j, _, rfl⟩ := hmem
    by_cases hj : j < lines.length
    · rw [List.getD_eq_getElem _ _ hj]
      exact Or.inl (List.getElem_mem hj)
    · rw [List.getD_eq_default _ _ (by omega)]
      exact Or.inr rfl
  · rw [if_neg hrel] at hmem
    exact absurd hmem (List.not_mem_nil x)

/-- C9 (amended): for every relevant line at index `i`, the filter's output
contains the lines at indices `i-1` through `i+1` (clamped to the text's
bounds — the code's context window is one line, not two); the collected
line list is duplicate-free and is the first-occurrence subsequence of the
concatenation of all relevant-line windows taken in order. -/
theorem extractProductSections_context (text : List Char) :
    (∀ i j : Nat, i < (splitLines text).length →
        relevantLine ((splitLines text).getD i []) = true →
        i - 1 ≤ j → j ≤ min ((splitLines text).length - 1) (i + 1) →
        (splitLines text).getD j [] ∈
          splitLines (extractProductSections text)) ∧
    (psLoop (splitLines text)).Nodup ∧
    (psLoop (splitLines text)).Sublist (concatWindows (splitLines text)) ∧
    ∀ x, x ∈ psLoop (splitLines text) ↔ x ∈ concatWindows (splitLines text) := by
  refine ⟨?_, ?_, ?_, mem_psLoop_iff _⟩
  · intro i j hi hrel hj1 hj2
    have hjmem : j ∈ ctxIdxs (splitLines text).length i :=
      (mem_ctxIdxs hi).mpr ⟨hj1, hj2⟩
    have hmem : (splitLines text).getD j [] ∈ psLoop (splitLines text) :=
      (mem_psLoop_iff _ _).mpr (mem_concatWindows_of_window hi hrel hjmem)
    have hne : psLoop (splitLines text) ≠ [] := by
      intro hh; rw [hh] at hmem; exact List.not_mem_nil _ hmem
    have hnl : ∀ l ∈ psLoop (splitLines text), '\n' ∉ l := by
      intro l hl
      rcases mem_psLoop_lines hl with h | rfl
      · exact mem_splitLines_no_nl l h
      · simp
    have hout : extractProductSections text = joinNL (psLoop (splitLines text)) := by
      simp only [extractProductSections]
      rw [if_pos (List.length_pos.mpr hne)]
    rw [hout, splitLines_joinNL hne hnl]
    exact hmem
  · rw [psLoop_eq]
    exact nodup_foldl_pushUnique _ [] List.nodup_nil
  · rw [psLoop_eq]
    obtain ⟨zs, hz, hsub⟩ := foldl_pushUnique_sublist
      (concatWindows (splitLines text)) []
    rw [hz]
    simpa using hsub

/-- C9, as stated in the spec, is false: in `"xq\nyq\nzq\nproduct"` the line
at index 3 is relevant (contains the keyword `product`) and index `1 = 3-2`
is in bounds, yet line 1 (`"yq"`) is not in the filter's output — the code's
context window is `[i-1, i+1]`, not `[i-2, i+2]`. -/
theorem extractProductSections_context_counterexample :
    relevantLine ((splitLines ("xq\nyq\nzq\nproduct".data)).getD 3 []) = true ∧
    "yq".data ∉ splitLines (extractProductSections ("xq\nyq\nzq\nproduct".data))
    := by decide

theorem extractProductSections_context_witness :
    (3 : Nat) < (splitLines ("xq\nyq\nzq\nproduct".data)).length ∧
    "zq".data ∈ splitLines (extractProductSections ("xq\nyq\nzq\nproduct".data))
    :=
  ⟨by decide,
    (extractProductSections_context ("xq\nyq\nzq\nproduct".data)).1 3 2
      (by decide) (by decide) (by decide) (by decide)⟩

/-! ### Text normalizer: `TextOptimizer.optimizeText` (C6)

Each `.replace(regex, ...)` of the source is modelled by a recursive
function realizing the regex's global leftmost-match replacement semantics
(JS `.` does not match `'\n'`; `\s` is modelled by `isWS`). -/

theorem len_dropWhile_le (p : Char → Bool) (l : List Char) :
    (l.dropWhile p).length ≤ l.length := (List.dropWhile_sublist p).length_le

theorem len_take_drop (p : Char → Bool) (l : List Char) :
    (l.takeWhile p).length + (l.dropWhile p).length = l.length := by
  conv_rhs => rw [← List.takeWhile_append_dropWhile p l]
  rw [List.length_append]

theorem len_takeWhile_lt {p : Char → Bool} {l : List Char} {x : Char}
    (hx : x ∈ l) (hp : p x = false) : (l.takeWhile p).length < l.length := by
  induction l with
  | nil => exact absurd hx (List.not_mem_nil x)
  | cons c rest ih =>
    by_cases hc : p c
    · rw [List.takeWhile_cons_of_pos hc]
      rcases List.mem_cons.mp hx with rfl | hx'
      · rw [hc] at hp; exact absurd hp (by simp)
      · simpa using ih hx'
    · rw [List.takeWhile_cons_of_neg hc]
      simp

/-- `.replace(/\n\s*\n/g, '\n')`: a `'\n'`, a greedy whitespace run that
still leaves a final `'\n'`, collapsed to a single `'\n'`.  The `fuel`
argument (initially the list's length, always sufficient) makes the
recursion structural. -/
def collapseNLWSAux : Nat → List Char → List Char
  | _, [] => []
  | 0, l => l
  | fuel + 1, c :: rest =>
    if c = '\n' then
      if '\n' ∈ rest.takeWhile isWS then
        '\n' :: collapseNLWSAux fuel
          (((rest.takeWhile isWS).reverse.takeWhile (fun d => !(d = '\n'))).reverse
            ++ rest.dropWhile isWS)
      else '\n' :: collapseNLWSAux fuel rest
    else c :: collapseNLWSAux fuel rest

def collapseNLWS (l : List Char) : List Char := collapseNLWSAux l.length l

/-- `.replace(/\s+/g, ' ')`. -/
def collapseWSAux : Nat → List Char → List Char
  | _, [] => []
  | 0, l => l
  | fuel + 1, c :: rest =>
    if isWS c then ' ' :: collapseWSAux fuel (rest.dropWhile isWS)
    else c :: collapseWSAux fuel rest

def collapseWS (l : List Char) : List Char := collapseWSAux l.length l

/-- Characters `.*?` may consume inside `\[.*?\]`. -/
def bracketBody (d : Char) : Bool := !(d = ']') && !(d = '\n')

/-- `.replace(/\[.*?\]/g, '')`: from a `'['`, the shortest span to a `']'`
with no newline in between is removed. -/
def removeBracketsAux : Nat → List Char → List Char
  | _, [] => []
  | 0, l => l
  | fuel + 1, c :: rest =>
    if c = '[' then
      match rest.dropWhile bracketBody with
      | ']' :: tail => removeBracketsAux fuel tail
      | _ => '[' :: removeBracketsAux fuel rest
    else c :: removeBracketsAux fuel rest

def removeBrackets (l : List Char) : List Char := removeBracketsAux l.length l

/-- `.replace(/\(\s*\)/g, '')` and `.replace(/\{\s*\}/g, '')`: an opening
character, a whitespace run, and the matching closing character are
removed. -/
def removeEmptyPairAux (openC closeC : Char) : Nat → List Char → List Char
  | _, [] => []
  | 0, l => l
  | fuel + 1, c :: rest =>
    if c = openC then
      match rest.dropWhile isWS with
      | d :: tail =>
        if d = closeC then removeEmptyPairAux openC closeC fuel tail
        else c :: removeEmptyPairAux openC closeC fuel rest
      | [] => c :: removeEmptyPairAux openC closeC fuel rest
    else c :: removeEmptyPairAux openC closeC fuel rest

def removeEmptyPair (openC closeC : Char) (l : List Char) : List Char :=
  removeEmptyPairAux openC closeC l.length l

/-- `.replace(/\|+/g, '|')` (also used for `/\-+/` and `/\=+/`): a run of
`ch` collapses to a single `ch`. -/
def collapseRunsAux (ch : Char) : Nat → List Char → List Char
  | _, [] => []
  | 0, l => l
  | fuel + 1, c :: rest =>
    if c = ch then ch :: collapseRunsAux ch fuel (rest.dropWhile (fun d => d = ch))
    else c :: collapseRunsAux ch fuel rest

def collapseRuns (ch : Char) (l : List Char) : List Char :=
  collapseRunsAux ch l.length l

/-- `.replace(/&nbsp;/g, ' ')`. -/
def replaceNbspAux : Nat → List Char → List Char
  | _, [] => []
  | 0, l => l
  | fuel + 1, c :: rest =>
    if c = '&' ∧ startsWith ("nbsp;".data) rest then
      ' ' :: replaceNbspAux fuel (rest.drop 5)
    else c :: replaceNbspAux fuel rest

def replaceNbsp (l : List Char) : List Char := replaceNbspAux l.length l

/-- The character class `[a-zA-Z0-9#]`. -/
def entityChar (d : Char) : Bool := d.isAlphanum || d = '#'

/-- `.replace(/&[a-zA-Z0-9#]+;/g, '')`. -/
def removeEntitiesAux : Nat → List Char → List Char
  | _, [] => []
  | 0, l => l
  | fuel + 1, c :: rest =>
    if c = '&' ∧ rest.takeWhile entityChar ≠ [] then
      match rest.dropWhile entityChar with
      | ';' :: tail => removeEntitiesAux fuel tail
      | _ => c :: removeEntitiesAux fuel rest
    else c :: removeEntitiesAux fuel rest

def removeEntities (l : List Char) : List Char := removeEntitiesAux l.length l

/-- `.replace(/\.{3,}/g, '...')` and `.replace(/\-{3,}/g, '---')`: runs of
`ch` of length at least three are replaced by `rep`; shorter runs are kept
as they are. -/
def collapseRunMin3Aux (ch : Char) (rep : List Char) : Nat → List Char → List Char
  | _, [] => []
  | 0, l => l
  | fuel + 1, c :: rest =>
    if c = ch then
      (if 1 + (rest.takeWhile (fun d => d = ch)).length ≥ 3 then rep
       else c :: rest.takeWhile (fun d => d = ch)) ++
        collapseRunMin3Aux ch rep fuel (rest.dropWhile (fun d => d = ch))
    else c :: collapseRunMin3Aux ch rep fuel rest

def collapseRunMin3 (ch : Char) (rep : List Char) (l : List Char) : List Char :=
  collapseRunMin3Aux ch rep l.length l

/-- `TextOptimizer.optimizeText`: the replace chain (innermost first), a
final `trim()`, then `extractProductSections`. -/
def optimizeText (text : List Char) : List Char :=
  extractProductSections (trim
    (collapseRunMin3 '-' ("---".data)
      (collapseRunMin3 '.' ("...".data)
        (removeEntities
          (replaceNbsp
            (collapseRuns '='
              (collapseRuns '-'
                (collapseRuns '|'
                  (removeEmptyPair '{' '}'
                    (removeEmptyPair '(' ')'
                      (removeBrackets
                        (collapseWS
                          (collapseNLWS text)))))))))))))
/-! ### Idempotence of the normalizer on plain text (C6) -/

/-- No two adjacent whitespace characters. -/
def noTwoWS : List Char → Bool
  | [] => true
  | [_] => true
  | a :: b :: rest => !(isWS a && isWS b) && noTwoWS (b :: rest)

/-- A character none of the replace rules can act on: a space, or a
non-whitespace character other than `[`, `(`, `{`, `|`, `-`, `=`, `&`,
`.`. -/
def plainChar (c : Char) : Bool :=
  c = ' ' || (!(isWS c) && !(c = '[') && !(c = '(') && !(c = '{') &&
    !(c = '|') && !(c = '-') && !(c = '=') && !(c = '&') && !(c = '.'))

/-- Plain text: only `plainChar`s, no two adjacent whitespace characters,
and no leading or trailing whitespace. -/
def plainText (l : List Char) : Bool :=
  l.all plainChar && noTwoWS l && !(isWS (l.headD 'x')) &&
    !(isWS (l.getLastD 'x'))

theorem plain_not_mem {l : List Char} (hp : ∀ c ∈ l, plainChar c = true)
    {x : Char} (hx : plainChar x = false) : x ∉ l := by
  intro hmem
  rw [hp x hmem] at hx
  exact Bool.true_eq_false.mp hx

theorem plain_ws_space {c : Char} (hpc : plainChar c = true)
    (hw : isWS c = true) : c = ' ' := by
  by_cases hc : c = ' '
  · exact hc
  · simp [plainChar, hc, hw] at hpc

theorem noTwoWS_tail {c : Char} {rest : List Char}
    (h : noTwoWS (c :: rest) = true) : noTwoWS rest = true := by
  cases rest with
  | nil => rfl
  | cons d rs =>
    simp only [noTwoWS, Bool.and_eq_true] at h
    exact h.2

theorem noTwoWS_head {c d : Char} {rs : List Char}
    (h : noTwoWS (c :: d :: rs) = true) (hc : isWS c = true) :
    isWS d = false := by
  simp only [noTwoWS, Bool.and_eq_true, Bool.not_eq_true'] at h
  rcases Bool.and_eq_false_iff.mp h.1 with hh | hh
  · rw [hc] at hh; exact absurd hh (by simp)
  · exact hh

theorem dropWhile_ws_eq_of_noTwoWS {c : Char} {rest : List Char}
    (h : noTwoWS (c :: rest) = true) (hc : isWS c = true) :
    rest.dropWhile isWS = rest := by
  cases rest with
  | nil => rfl
  | cons d rs => exact List.dropWhile_cons_of_neg (by simp [noTwoWS_head h hc])

theorem collapseNLWSAux_id {l : List Char} (h : '\n' ∉ l) :
    ∀ fuel, collapseNLWSAux fuel l = l := by
  induction l with
  | nil => intro fuel; cases fuel <;> rfl
  | cons c rest ih =>
    intro fuel
    cases fuel with
    | zero => rfl
    | succ fuel =>
      have hc : c ≠ '\n' := fun hh => h (hh ▸ List.mem_cons_self c rest)
      simp only [collapseNLWSAux, if_neg hc]
      rw [ih (fun hh => h (List.mem_cons_of_mem c hh)) fuel]

theorem collapseWSAux_id {l : List Char}
    (hp : ∀ c ∈ l, plainChar c = true) (ha : noTwoWS l = true) :
    ∀ fuel, collapseWSAux fuel l = l := by
  induction l with
  | nil => intro fuel; cases fuel <;> rfl
  | cons c rest ih =>
    intro fuel
    cases fuel with
    | zero => rfl
    | succ fuel =>
      have ihr := ih (fun x hx => hp x (List.mem_cons_of_mem c hx))
        (noTwoWS_tail ha)
      by_cases hw : isWS c = true
      · have hsp : c = ' ' := plain_ws_space (hp c (List.mem_cons_self c rest)) hw
        simp only [collapseWSAux, if_pos hw]
        rw [dropWhile_ws_eq_of_noTwoWS ha hw, ihr fuel, hsp]
      · simp only [collapseWSAux, if_neg hw]
        rw [ihr fuel]

theorem removeBracketsAux_id {l : List Char} (h : '[' ∉ l) :
    ∀ fuel, removeBracketsAux fuel l = l := by
  induction l with
  | nil => intro fuel; cases fuel <;> rfl
  | cons c rest ih =>
    intro fuel
    cases fuel with
    | zero => rfl
    | succ fuel =>
      have hc : c ≠ '[' := fun hh => h (hh ▸ List.mem_cons_self c rest)
      simp only [removeBracketsAux, if_neg hc]
      rw [ih (fun hh => h (List.mem_cons_of_mem c hh)) fuel]

theorem removeEmptyPairAux_id (openC closeC : Char) {l : List Char}
    (h : openC ∉ l) : ∀ fuel, removeEmptyPairAux openC closeC fuel l = l := by
  induction l with
  | nil => intro fuel; cases fuel <;> rfl
  | cons c rest ih =>
    intro fuel
    cases fuel with
    | zero => rfl
    | succ fuel =>
      have hc : c ≠ openC := fun hh => h (hh ▸ List.mem_cons_self c rest)
      simp only [removeEmptyPairAux, if_neg hc]
      rw [ih (fun hh => h (List.mem_cons_of_mem c hh)) fuel]

theorem collapseRunsAux_id (ch : Char) {l : List Char} (h : ch ∉ l) :
    ∀ fuel, collapseRunsAux ch fuel l = l := by
  induction l with
  | nil => intro fuel; cases fuel <;> rfl
  | cons c rest ih =>
    intro fuel
    cases fuel with
    | zero => rfl
    | succ fuel =>
      have hc : c ≠ ch := fun hh => h (hh ▸ List.mem_cons_self c rest)
      simp only [collapseRunsAux, if_neg hc]
      rw [ih (fun hh => h (List.mem_cons_of_mem c hh)) fuel]

theorem replaceNbspAux_id {l : List Char} (h : '&' ∉ l) :
    ∀ fuel, replaceNbspAux fuel l = l := by
  induction l with
  | nil => intro fuel; cases fuel <;> rfl
  | cons c rest ih =>
    intro fuel
    cases fuel with
    | zero => rfl
    | succ fuel =>
      have hc : c ≠ '&' := fun hh => h (hh ▸ List.mem_cons_self c rest)
      have hcond : ¬(c = '&' ∧ startsWith ("nbsp;".data) rest = true) :=
        fun hand => hc hand.1
      simp only [replaceNbspAux, if_neg hcond]
      rw [ih (fun hh => h (List.mem_cons_of_mem c hh)) fuel]

theorem removeEntitiesAux_id {l : List Char} (h : '&' ∉ l) :
    ∀ fuel, removeEntitiesAux fuel l = l := by
  induction l with
  | nil => intro fuel; cases fuel <;> rfl
  | cons c rest ih =>
    intro fuel
    cases fuel with
    | zero => rfl
    | succ fuel =>
      have hc : c ≠ '&' := fun hh => h (hh ▸ List.mem_cons_self c rest)
      have hcond : ¬(c = '&' ∧ rest.takeWhile entityChar ≠ []) :=
        fun hand => hc hand.1
      simp only [removeEntitiesAux, if_neg hcond]
      rw [ih (fun hh => h (List.mem_cons_of_mem c hh)) fuel]

theorem collapseRunMin3Aux_id (ch : Char) (rep : List Char) {l : List Char}
    (h : ch ∉ l) : ∀ fuel, collapseRunMin3Aux ch rep fuel l = l := by
  induction l with
  | nil => intro fuel; cases fuel <;> rfl
  | cons c rest ih =>
    intro fuel
    cases fuel with
    | zero => rfl
    | succ fuel =>
      have hc : c ≠ ch := fun hh => h (hh ▸ List.mem_cons_self c rest)
      simp only [collapseRunMin3Aux, if_neg hc]
      rw [ih (fun hh => h (List.mem_cons_of_mem c hh)) fuel]

theorem extractProductSections_single_line {l : List Char} (h : '\n' ∉ l) :
    extractProductSections l = l := by
  have hsplit : splitLines l = [l] := splitLines_no_nl h
  have hps : psLoop [l] = if relevantLine l then [l] else [] := by
    have hrange : List.range ([l] : List (List Char)).length = [0] := rfl
    simp only [psLoop, hrange, List.foldl_cons, List.foldl_nil]
    have hwin : windowElems [l] 0 = [l] := rfl
    simp only [List.getD_cons_zero]
    by_cases hrel : relevantLine l
    · rw [if_pos hrel, if_pos hrel, hwin]
      rfl
    · rw [if_neg hrel, if_neg hrel]
  by_cases hrel : relevantLine l
  · rw [if_pos hrel] at hps
    simp only [extractProductSections, hsplit, hps]
    simp [joinNL]
  · rw [if_neg hrel] at hps
    simp only [extractProductSections, hsplit, hps]
    simp

/-- On plain text every stage of `optimizeText` is the identity. -/
theorem optimizeText_plain_id {l : List Char} (h : plainText l = true) :
    optimizeText l = l := by
  have h' := h
  simp only [plainText, Bool.and_eq_true, Bool.not_eq_true'] at h'
  obtain ⟨⟨⟨hall, hadj⟩, hhead⟩, hlast⟩ := h'
  have hp : ∀ c ∈ l, plainChar c = true := List.all_eq_true.mp hall
  have hnl : '\n' ∉ l := plain_not_mem hp (by decide)
  have hbr : '[' ∉ l := plain_not_mem hp (by decide)
  have hpar : '(' ∉ l := plain_not_mem hp (by decide)
  have hbrace : '{' ∉ l := plain_not_mem hp (by decide)
  have hpipe : '|' ∉ l := plain_not_mem hp (by decide)
  have hdash : '-' ∉ l := plain_not_mem hp (by decide)
  have heq : '=' ∉ l := plain_not_mem hp (by decide)
  have hamp : '&' ∉ l := plain_not_mem hp (by decide)
  have hdot : '.' ∉ l := plain_not_mem hp (by decide)
  have htrim : trim l = l := by
    cases hl0 : l with
    | nil => rfl
    | cons a t =>
      apply trim_of_cleanEnds
      refine ⟨by simp, ?_, ?_⟩
      · rw [hl0] at hhead
        simpa using hhead
      · rw [hl0] at hlast
        rw [cleanEnds_getLastD_any (by simp) ' ' 'x']
        exact hlast
  unfold optimizeText collapseNLWS collapseWS removeBrackets removeEmptyPair
    collapseRuns replaceNbsp removeEntities collapseRunMin3
  rw [collapseNLWSAux_id hnl, collapseWSAux_id hp hadj,
    removeBracketsAux_id hbr, removeEmptyPairAux_id '(' ')' hpar,
    removeEmptyPairAux_id '{' '}' hbrace, collapseRunsAux_id '|' hpipe,
    collapseRunsAux_id '-' hdash, collapseRunsAux_id '=' heq,
    replaceNbspAux_id hamp, removeEntitiesAux_id hamp,
    collapseRunMin3Aux_id '.' ("...".data) hdot,
    collapseRunMin3Aux_id '-' ("---".data) hdash, htrim,
    extractProductSections_single_line hnl]

/-- C6 (amended): the normalizer is idempotent on plain texts — texts made
of spaces and non-whitespace characters other than `[`, `(`, `{`, `|`, `-`,
`=`, `&`, `.`, with no adjacent whitespace and no leading or trailing
whitespace (on such texts it is in fact the identity).  In general it is
not idempotent: a removal can create a new whitespace run or empty pair
that only a second pass collapses. -/
theorem optimizeText_idempotent (l : List Char) (h : plainText l = true) :
    optimizeText (optimizeText l) = optimizeText l := by
  rw [optimizeText_plain_id h, optimizeText_plain_id h]

/-- C6, as stated in the spec, is false: on `"a&nbsp;&nbsp;b"` one pass
yields `"a  b"` (entity removal leaves a double space the earlier
whitespace-collapsing rule no longer sees), and a second pass yields
`"a b"`. -/
theorem optimizeText_idempotent_counterexample :
    optimizeText (optimizeText ("a&nbsp;&nbsp;b".data)) ≠
      optimizeText ("a&nbsp;&nbsp;b".data) := by decide

theorem optimizeText_idempotent_witness :
    plainText ("hello world".data) = true ∧
    optimizeText (optimizeText ("hello world".data)) =
      optimizeText ("hello world".data) :=
  ⟨by decide, optimizeText_idempotent ("hello world".data) (by decide)⟩

/-! ### Products, deduplication (C7) and similarity (C8) -/

/-- The fields of a candidate product that `removeDuplicateProducts` and
`calculateSimilarity` read (`none` models a missing/undefined field;
`capacity = some v` models a present `specifications.capacity` object whose
`.value` is `v` when present).  `extra` stands for all remaining fields of
the JS object, so distinct entries can share the read fields. -/
structure Product where
  name : Option (List Char)
  category : Option (List Char)
  material : Option (List Char)
  capacity : Option (Option ℚ)
  extra : List Char
deriving DecidableEq

/-- `${field?.toLowerCase()}` — JS stringifies `undefined` to
`"undefined"` inside a template literal. -/
def optLower (o : Option (List Char)) : List Char :=
  (o.map toLowerJS).getD ("undefined".data)

/-- The dedup key `` `${product.name?.toLowerCase()}-${product.category?.toLowerCase()}` ``. -/
def dedupKey (p : Product) : List Char :=
  optLower p.name ++ '-' :: optLower p.category

/-- The lower-cased (name, category) pair the spec's dedup guarantee
speaks about. -/
def pairKey (p : Product) : Option (List Char) × Option (List Char) :=
  (p.name.map toLowerJS, p.category.map toLowerJS)

/-- The `seen`-map loop of `AIService.removeDuplicateProducts`. -/
def rdpAux (seen : List (List Char)) : List Product → List Product
  | [] => []
  | p :: rest =>
    if dedupKey p ∈ seen then rdpAux seen rest
    else p :: rdpAux (dedupKey p :: seen) rest

/-- `AIService.removeDuplicateProducts`. -/
def removeDuplicateProducts (products : List Product) : List Product :=
  rdpAux [] products

theorem pairKey_eq_dedupKey {p q : Product} (h : pairKey p = pairKey q) :
    dedupKey p = dedupKey q := by
  unfold pairKey at h
  injection h with h1 h2
  unfold dedupKey optLower
  rw [h1, h2]

theorem rdpAux_keys_fresh :
    ∀ (l : List Product) (seen : List (List Char)),
      ((rdpAux seen l).map dedupKey).Nodup ∧
      ∀ k ∈ (rdpAux seen l).map dedupKey, k ∉ seen := by
  intro l
  induction l with
  | nil => intro seen; exact ⟨List.nodup_nil, by simp [rdpAux]⟩
  | cons p rest ih =>
    intro seen
    by_cases hp : dedupKey p ∈ seen
    · simp only [rdpAux, if_pos hp]
      exact ih seen
    · simp only [rdpAux, if_neg hp, List.map_cons]
      obtain ⟨hnd, hfresh⟩ := ih (dedupKey p :: seen)
      constructor
      · rw [List.nodup_cons]
        refine ⟨fun hmem => ?_, hnd⟩
        exact hfresh _ hmem (List.mem_cons_self _ _)
      · intro k hk
        rcases List.mem_cons.mp hk with rfl | hk'
        · exact hp
        · exact fun hks => hfresh k hk' (List.mem_cons_of_mem _ hks)

theorem rdpAux_of_nodup :
    ∀ (l : List Product) (seen : List (List Char)),
      (l.map dedupKey).Nodup → (∀ k ∈ l.map dedupKey, k ∉ seen) →
      rdpAux seen l = l := by
  intro l
  induction l with
  | nil => intro seen _ _; rfl
  | cons p rest ih =>
    intro seen hnd hfresh
    have hp : dedupKey p ∉ seen :=
      hfresh _ (List.mem_cons_self _ _)
    simp only [rdpAux, if_neg hp]
    rw [List.map_cons, List.nodup_cons] at hnd
    refine congrArg (p :: ·) (ih _ hnd.2 ?_)
    intro k hk hks
    rcases List.mem_cons.mp hks with hkp | hkseen
    · exact hnd.1 (hkp ▸ hk)
    · exact hfresh k (List.mem_cons_of_mem _ hk) hkseen

theorem rdpAux_filter_key :
    ∀ (l : List Product) (seen : List (List Char)) (k : List Char),
      (k ∉ seen →
        (rdpAux seen l).filter (fun p => dedupKey p = k) =
          (l.filter (fun p => dedupKey p = k)).take 1) ∧
      (k ∈ seen →
        (rdpAux seen l).filter (fun p => dedupKey p = k) = []) := by
  intro l
  induction l with
  | nil =>
    intro seen k
    exact ⟨fun _ => by simp [rdpAux], fun _ => by simp [rdpAux]⟩
  | cons p rest ih =>
    intro seen k
    by_cases hp : dedupKey p ∈ seen
    · simp only [rdpAux, if_pos hp]
      constructor
      · intro hk
        have hpk : ¬(dedupKey p = k) := fun hh => hk (hh ▸ hp)
        rw [List.filter_cons_of_neg (by simpa using hpk)]
        exact (ih seen k).1 hk
      · intro hk
        exact (ih seen k).2 hk
    · simp only [rdpAux, if_neg hp]
      constructor
      · intro hk
        by_cases hpk : dedupKey p = k
        · rw [List.filter_cons_of_pos (by simpa using hpk),
            List.filter_cons_of_pos (by simpa using hpk)]
          have := (ih (dedupKey p :: seen) k).2
            (by rw [hpk]; exact List.mem_cons_self _ _)
          rw [this]
          simp
        · rw [List.filter_cons_of_neg (by simpa using hpk),
            List.filter_cons_of_neg (by simpa using hpk)]
          exact (ih (dedupKey p :: seen) k).1
            (fun hmem => by
              rcases List.mem_cons.mp hmem with hh | hh
              · exact hpk hh.symm
              · exact hk hh)
      · intro hk
        have hpk : ¬(dedupKey p = k) := fun hh => hp (hh.symm ▸ hk)
        rw [List.filter_cons_of_neg (by simpa using hpk)]
        exact (ih (dedupKey p :: seen) k).2 (List.mem_cons_of_mem _ hk)

theorem pairwise_ne_of_map_nodup {α β : Type} (f : α → β) :
    ∀ {l : List α}, (l.map f).Nodup →
      List.Pairwise (fun p q => f p ≠ f q) l := by
  intro l
  induction l with
  | nil => intro _; exact List.Pairwise.nil
  | cons a l ih =>
    intro h
    rw [List.map_cons, List.nodup_cons] at h
    refine List.Pairwise.cons ?_ (ih h.2)
    intro b hb hfb
    exact h.1 (hfb ▸ List.mem_map_of_mem f hb)

/-- C7 (amended): the deduplicator is idempotent, and its output has
pairwise-distinct string keys — in particular no two entries with equal
lower-cased (name, category) pairs; stability holds with respect to the
string key `lower(name) ++ "-" ++ lower(category)` the code actually uses:
for every key, exactly the first entry of the input carrying that string
key is retained.  Distinct (name, category) pairs can collide on that
string key when a `-` makes the concatenation ambiguous, and then only the
overall first entry survives. -/
theorem removeDuplicateProducts_spec (l : List Product) :
    removeDuplicateProducts (removeDuplicateProducts l) =
        removeDuplicateProducts l ∧
    List.Pairwise (fun p q => pairKey p ≠ pairKey q)
      (removeDuplicateProducts l) ∧
    ∀ k, (removeDuplicateProducts l).filter (fun p => dedupKey p = k) =
      (l.filter (fun p => dedupKey p = k)).take 1 := by
  obtain ⟨hnd, _⟩ := rdpAux_keys_fresh l []
  refine ⟨?_, ?_, ?_⟩
  · exact rdpAux_of_nodup (rdpAux [] l) [] hnd (by simp)
  · have hkeys : List.Pairwise (fun p q => dedupKey p ≠ dedupKey q)
        (removeDuplicateProducts l) := pairwise_ne_of_map_nodup dedupKey hnd
    exact hkeys.imp (fun h hpq => h (pairKey_eq_dedupKey hpq))
  · intro k
    exact (rdpAux_filter_key l [] k).1 (by simp)

/-- C7, as stated in the spec, is false on the stability conjunct: `p2` and
`p3` share the lower-cased (name, category) pair `("a", "b-c")`, `p1` has a
different pair, yet the output is `[p1]` — the string keys
`"a-b" + "-" + "c"` and `"a" + "-" + "b-c"` coincide, so neither `p2` (the
first of its pair group) nor `p3` is retained. -/
theorem removeDuplicateProducts_counterexample :
    (pairKey ⟨some ("a".data), some ("b-c".data), none, none, "x".data⟩ =
      pairKey ⟨some ("a".data), some ("b-c".data), none, none, "y".data⟩) ∧
    (pairKey ⟨some ("a-b".data), some ("c".data), none, none, []⟩ ≠
      pairKey ⟨some ("a".data), some ("b-c".data), none, none, "x".data⟩) ∧
    removeDuplicateProducts
        [⟨some ("a-b".data), some ("c".data), none, none, []⟩,
         ⟨some ("a".data), some ("b-c".data), none, none, "x".data⟩,
         ⟨some ("a".data), some ("b-c".data), none, none, "y".data⟩] =
      [⟨some ("a-b".data), some ("c".data), none, none, []⟩] := by decide

/-! ### Similarity scorer: `AIService.calculateSimilarity` (C8)

JS numbers are modelled by exact rationals (the weights 0.4, 0.3, 0.2, 0.1
become 2/5, 3/10, 1/5, 1/10); the claims under study concern which weights
enter the divisor, not float rounding. -/

/-- Truthiness of `product.name` (`undefined` and `""` are falsy). -/
def namePresent (p : Product) : Bool :=
  match p.name with
  | some s => !s.isEmpty
  | none => false

/-- Truthiness of `product.specifications?.material`. -/
def materialPresent (p : Product) : Bool :=
  match p.material with
  | some s => !s.isEmpty
  | none => false

/-- Truthiness of `product.specifications?.capacity` (an object). -/
def capacityPresent (p : Product) : Bool := p.capacity.isSome

/-- `product.specifications.capacity.value || 0`. -/
def capacityValue (p : Product) : ℚ :=
  match p.capacity with
  | some (some v) => v
  | _ => 0

/-- `AIService.levenshteinDistance`: the DP matrix of the source computes
exactly this textbook recurrence (`matrix[i][j]` for the prefixes of
lengths `i` of `str2` and `j` of `str1`), via structural recursion with a
fuel bound. -/
def levenshteinAux : Nat → List Char → List Char → Nat
  | _, [], ys => ys.length
  | _, x :: xs, [] => (x :: xs).length
  | 0, xs, ys => xs.length + ys.length
  | fuel + 1, x :: xs, y :: ys =>
    if y = x then levenshteinAux fuel xs ys
    else 1 + min (levenshteinAux fuel xs ys)
      (min (levenshteinAux fuel (x :: xs) ys) (levenshteinAux fuel xs (y :: ys)))

def levenshteinDistance (s1 s2 : List Char) : Nat :=
  levenshteinAux (s1.length + s2.length) s1 s2

/-- `AIService.stringSimilarity`. -/
def stringSimilarity (str1 str2 : List Char) : ℚ :=
  let longer := if str1.length > str2.length then str1 else str2
  let shorter := if str1.length > str2.length then str2 else str1
  if longer.length = 0 then 1
  else ((longer.length : ℚ) - levenshteinDistance longer shorter) / longer.length

/-- The `(score, factors)` accumulators of `AIService.calculateSimilarity`,
built up in the source's order: name (conditional weight 0.4), category
(unconditional weight 0.3), material (unconditional weight 0.2), capacity
(unconditional weight 0.1). -/
def calculateSimilarityParts (p1 p2 : Product) : ℚ × ℚ :=
  let s0 : ℚ := 0
  let f0 : ℚ := 0
  let s1 := if namePresent p1 && namePresent p2 then
      s0 + stringSimilarity (toLowerJS (p1.name.getD []))
        (toLowerJS (p2.name.getD [])) * (2/5)
    else s0
  let f1 := if namePresent p1 && namePresent p2 then f0 + 2/5 else f0
  let s2 := if p1.category = p2.category then s1 + 3/10 else s1
  let f2 := f1 + 3/10
  let s3 := if materialPresent p1 && materialPresent p2 then
      (if toLowerJS (p1.material.getD []) = toLowerJS (p2.material.getD [])
       then s2 + 1/5 else s2)
    else s2
  let f3 := f2 + 1/5
  let s4 := if capacityPresent p1 && capacityPresent p2 then
      (if capacityValue p1 > 0 ∧ capacityValue p2 > 0 then
        s3 + (1 - |capacityValue p1 - capacityValue p2| /
          max (capacityValue p1) (capacityValue p2)) * (1/10)
       else s3)
    else s3
  let f4 := f3 + 1/10
  (s4, f4)

/-- `AIService.calculateSimilarity`: `factors > 0 ? score / factors : 0`. -/
def calculateSimilarity (p1 p2 : Product) : ℚ :=
  let parts := calculateSimilarityParts p1 p2
  if parts.2 > 0 then parts.1 / parts.2 else 0

/-- Modelled from the spec: the divisor as the spec describes it — "the sum
of exactly those weights whose preconditions held", excluding 0.2 when a
material is absent on either side and 0.1 when a capacity is missing or
non-positive. -/
def specDivisor (p1 p2 : Product) : ℚ :=
  (if namePresent p1 && namePresent p2 then (2/5 : ℚ) else 0) + 3/10 +
  (if materialPresent p1 && materialPresent p2 then (1/5 : ℚ) else 0) +
  (if (capacityPresent p1 && capacityPresent p2) = true ∧
      capacityValue p1 > 0 ∧ capacityValue p2 > 0 then (1/10 : ℚ) else 0)

/-- C8 (amended): the divisor `factors` equals 0.3 + 0.2 + 0.1 plus 0.4
exactly when both names are present — only the name weight is conditional;
the material and capacity weights are always added to the divisor even when
their preconditions fail (only their score contributions are skipped). -/
theorem calculateSimilarity_divisor (p1 p2 : Product) :
    (calculateSimilarityParts p1 p2).2 =
      (if namePresent p1 && namePresent p2 then (2/5 : ℚ) else 0) +
        3/10 + 1/5 + 1/10 := by
  simp only [calculateSimilarityParts]
  by_cases h : (namePresent p1 && namePresent p2) = true
  · rw [if_pos h, if_pos h]
    ring
  · rw [if_neg h, if_neg h]

/-- C8, as stated in the spec, is false: for two products with equal
nonempty names and no material or capacity, the code's divisor is
0.4 + 0.3 + 0.2 + 0.1 = 1, while the spec's renormalized divisor (material
and capacity weights excluded) is 0.4 + 0.3 = 0.7. -/
theorem calculateSimilarity_divisor_counterexample :
    (calculateSimilarityParts
        ⟨some ("aa".data), some ("x".data), none, none, []⟩
        ⟨some ("aa".data), some ("x".data), none, none, []⟩).2 ≠
      specDivisor
        ⟨some ("aa".data), some ("x".data), none, none, []⟩
        ⟨some ("aa".data), some ("x".data), none, none, []⟩ := by
  have hn : namePresent ⟨some ("aa".data), some ("x".data), none, none, []⟩
      = true := rfl
  have hm : materialPresent ⟨some ("aa".data), some ("x".data), none, none, []⟩
      = false := rfl
  have hc : capacityPresent ⟨some ("aa".data), some ("x".data), none, none, []⟩
      = false := rfl
  norm_num [calculateSimilarityParts, specDivisor, hn, hm, hc]

/-! ### Response parsing: `AIService.parseAndValidateResponse` (C5, C10)

`JSON.parse` plus the per-product validation/defaulting loop is modelled by
the `jsonStage` parameter (it may succeed with a structured result or fail,
as `JSON.parse`/the validators can throw); the branches under study run
before it. -/

/-- `summary` of a structured AI result (`processingNotes = []` models an
absent/empty — falsy — note). -/
structure Summary where
  totalProducts : Nat
  categories : List (Option (List Char))
  processingNotes : List Char
deriving DecidableEq

/-- A structured extraction result `{products, summary}`. -/
structure AIResult where
  products : List Product
  summary : Summary
deriving DecidableEq

/-- The refusal-phrase check at the top of `parseAndValidateResponse`. -/
def refusalCheck (resp : List Char) : Bool :=
  containsSub ("sorry".data) (toLowerJS resp) ||
  containsSub ("unable to extract".data) (toLowerJS resp) ||
  containsSub ("no actual product information".data) (toLowerJS resp)

/-- The result returned when the AI indicated no product information. -/
def refusalResult : AIResult :=
  ⟨[], ⟨0, [], "No product information found in the provided text.".data⟩⟩

/-- The fallback returned when no JSON object span is found. -/
def noJsonFallback : AIResult :=
  ⟨[], ⟨0, [], "AI response did not contain valid JSON format.".data⟩⟩

/-- Continuation of `hasJsonSpan` after skipping to the first `'{'`. -/
def hasJsonSpanCont : List Char → Bool
  | [] => false
  | _ :: t => decide ('}' ∈ t)

/-- Whether `/\{[\s\S]*\}/` matches: a `'{'` with a `'}'` somewhere after. -/
def hasJsonSpan (l : List Char) : Bool :=
  hasJsonSpanCont (l.dropWhile (fun c => !(c = '{')))

/-- Close the span at the last `'}'` (the argument is the reversed tail
with everything after that `'}'` dropped). -/
def jsonSpanClose (c : Char) : List Char → Option (List Char)
  | [] => none
  | r => some (c :: r.reverse)

/-- Continuation of `jsonSpan` after skipping to the first `'{'`. -/
def jsonSpanCont : List Char → Option (List Char)
  | [] => none
  | c :: t => jsonSpanClose c (t.reverse.dropWhile (fun d => !(d = '}')))

/-- `aiResponse.match(/\{[\s\S]*\}/)`: the (greedy) span from the first
`'{'` through the last `'}'` after it. -/
def jsonSpan (l : List Char) : Option (List Char) :=
  jsonSpanCont (l.dropWhile (fun c => !(c = '{')))

/-- `AIService.parseAndValidateResponse`: refusal check, then JSON-span
extraction with fallback, then the parse/validate stage whose exception the
outer catch wraps into `Failed to parse AI response: ...`. -/
def parseAndValidateResponse
    (jsonStage : List Char → Except (List Char) AIResult)
    (aiResponse : List Char) : Except (List Char) AIResult :=
  if refusalCheck aiResponse then Except.ok refusalResult
  else
    match jsonSpan aiResponse with
    | none => Except.ok noJsonFallback
    | some s =>
      match jsonStage s with
      | Except.ok r => Except.ok r
      | Except.error e =>
        Except.error ("Failed to parse AI response: ".data ++ e)

theorem jsonSpan_none_of_no_span {l : List Char}
    (h : hasJsonSpan l = false) : jsonSpan l = none := by
  unfold hasJsonSpan at h
  unfold jsonSpan
  cases hd : l.dropWhile (fun c => !(c = '{')) with
  | nil => rfl
  | cons c t =>
    rw [hd] at h
    have hmem : '}' ∉ t := by simpa [hasJsonSpanCont] using h
    have hrev : t.reverse.dropWhile (fun d => !(d = '}')) = [] := by
      rw [List.dropWhile_eq_nil_iff]
      intro x hx
      have : x ≠ '}' := fun hh => hmem (hh ▸ List.mem_reverse.mp hx)
      simpa using this
    simp [jsonSpanCont, hrev, jsonSpanClose]

/-- C5: if the raw response contains no `{`...`}` span, the parser returns
`ok` (it does not throw) with an empty product list, `totalProducts = 0`
and a non-empty explanatory note — whichever of the refusal or no-JSON
branches fires. -/
theorem parseAndValidateResponse_no_json
    (jsonStage : List Char → Except (List Char) AIResult)
    (resp : List Char) (h : hasJsonSpan resp = false) :
    ∃ r, parseAndValidateResponse jsonStage resp = Except.ok r ∧
      r.products = [] ∧ r.summary.totalProducts = 0 ∧
      r.summary.processingNotes ≠ [] := by
  have hnone : jsonSpan resp = none := jsonSpan_none_of_no_span h
  by_cases hr : refusalCheck resp = true
  · exact ⟨refusalResult, by simp [parseAndValidateResponse, hr], rfl, rfl,
      by decide⟩
  · refine ⟨noJsonFallback, ?_, rfl, rfl, by decide⟩
    simp [parseAndValidateResponse, hr, hnone]

theorem parseAndValidateResponse_no_json_witness :
    ∃ r, parseAndValidateResponse (fun _ => Except.error [])
        ("No braces in sight.".data) = Except.ok r ∧
      r.products = [] ∧ r.summary.totalProducts = 0 ∧
      r.summary.processingNotes ≠ [] :=
  parseAndValidateResponse_no_json (fun _ => Except.error [])
    ("No braces in sight.".data) (by decide)

/-- C10: the refusal-phrase check precedes JSON extraction — any response
whose case-folded text contains "sorry", "unable to extract" or "no actual
product information" yields the empty refusal result with note
"No product information found in the provided text.", whatever the JSON
stage would have produced. -/
theorem parseAndValidateResponse_refusal_first
    (jsonStage : List Char → Except (List Char) AIResult)
    (resp : List Char) (h : refusalCheck resp = true) :
    parseAndValidateResponse jsonStage resp = Except.ok refusalResult ∧
    refusalResult.products = [] ∧
    refusalResult.summary.totalProducts = 0 ∧
    refusalResult.summary.processingNotes =
      "No product information found in the provided text.".data :=
  ⟨by simp [parseAndValidateResponse, h], rfl, rfl, rfl⟩

theorem parseAndValidateResponse_refusal_first_witness :
    hasJsonSpan ("I am sorry. Here: { products }".data) = true ∧
    parseAndValidateResponse
        (fun _ => Except.ok
          ⟨[⟨some ("p".data), some ("c".data), none, none, []⟩], ⟨1, [], []⟩⟩)
        ("I am sorry. Here: { products }".data) = Except.ok refusalResult :=
  ⟨by decide,
    (parseAndValidateResponse_refusal_first _ _ (by decide)).1⟩

/-! ### Chunk orchestration: `AIService.processMultipleChunks` (C4)

One AI call is made per (prioritized) chunk; the outcome of chunk `i`'s
call-and-parse is modelled as `results[i] : Except error AIResult` —
`Except.error` standing for the thrown/caught failure of that chunk. -/

/-- `` `Chunk ${i + 1}: Processing failed - ${error.message}` ``. -/
def failNote (i : Nat) (e : List Char) : List Char :=
  "Chunk ".data ++ Nat.toDigits 10 (i + 1) ++ ": Processing failed - ".data ++ e

/-- `` `Chunk ${i + 1}: ${chunkResult.summary.processingNotes}` ``. -/
def okNote (i : Nat) (msg : List Char) : List Char :=
  "Chunk ".data ++ Nat.toDigits 10 (i + 1) ++ ": ".data ++ msg

/-- One iteration of the `for` loop over prioritized chunks: accumulate
products of a successful chunk (when non-empty), record its processing
note (when truthy), and on failure record the failure note and continue. -/
def pmcStep : List Product × List (List Char) →
    Nat × Except (List Char) AIResult → List Product × List (List Char)
  | (allProducts, notes), (i, Except.ok r) =>
    (if r.products.length > 0 then allProducts ++ r.products else allProducts,
     if r.summary.processingNotes ≠ [] then
       notes ++ [okNote i r.summary.processingNotes]
     else notes)
  | (allProducts, notes), (i, Except.error e) =>
    (allProducts, notes ++ [failNote i e])

/-- `processingNotes.join('; ')`. -/
def joinSemicolon : List (List Char) → List Char
  | [] => []
  | [x] => x
  | x :: xs => x ++ "; ".data ++ joinSemicolon xs

/-- The products of a successful chunk outcome. -/
def okProducts (r : Except (List Char) AIResult) : Option (List Product) :=
  match r with
  | Except.ok a => some a.products
  | Except.error _ => none

/-- `AIService.processMultipleChunks` on the per-chunk outcomes. -/
def processMultipleChunks
    (results : List (Except (List Char) AIResult)) : AIResult :=
  let st := (results.enum).foldl pmcStep ([], [])
  let uniqueProducts := removeDuplicateProducts st.1
  ⟨uniqueProducts,
    ⟨uniqueProducts.length,
     (uniqueProducts.map (fun p => p.category)).foldl pushUnique [],
     "Processed ".data ++ Nat.toDigits 10 results.length ++
       " chunks. ".data ++ joinSemicolon st.2⟩⟩

theorem pmc_fold_products :
    ∀ (rs : List (Except (List Char) AIResult)) (k : Nat)
      (st : List Product × List (List Char)),
      ((List.enumFrom k rs).foldl pmcStep st).1 =
        st.1 ++ (rs.filterMap okProducts).flatten := by
  intro rs
  induction rs with
  | nil => intro k st; simp
  | cons r rs ih =>
    intro k st
    cases r with
    | ok a =>
      simp only [List.enumFrom, List.foldl_cons, List.filterMap_cons,
        okProducts, List.flatten_cons]
      rw [ih]
      by_cases hp : a.products.length > 0
      · simp only [pmcStep, if_pos hp, List.append_assoc]
      · have hnil : a.products = [] := by
          cases hq : a.products with
          | nil => rfl
          | cons x xs => rw [hq] at hp; simp at hp
        simp [pmcStep, hnil]
    | error e =>
      simp only [List.enumFrom, List.foldl_cons, List.filterMap_cons,
        okProducts]
      rw [ih]
      rfl

theorem pmc_fold_notes_append :
    ∀ (rs : List (Except (List Char) AIResult)) (k : Nat)
      (st : List Product × List (List Char)),
      ∃ zs, ((List.enumFrom k rs).foldl pmcStep st).2 = st.2 ++ zs := by
  intro rs
  induction rs with
  | nil => intro k st; exact ⟨[], by simp⟩
  | cons r rs ih =>
    intro k st
    cases r with
    | ok a =>
      simp only [List.enumFrom, List.foldl_cons]
      obtain ⟨zs, hz⟩ := ih (k + 1) (pmcStep st (k, Except.ok a))
      by_cases hn : a.summary.processingNotes ≠ []
      · refine ⟨okNote k a.summary.processingNotes :: zs, ?_⟩
        rw [hz]
        simp [pmcStep, hn]
      · refine ⟨zs, ?_⟩
        rw [hz]
        simp [pmcStep, hn]
    | error e =>
      simp only [List.enumFrom, List.foldl_cons]
      obtain ⟨zs, hz⟩ := ih (k + 1) (pmcStep st (k, Except.error e))
      refine ⟨failNote k e :: zs, ?_⟩
      rw [hz]
      simp [pmcStep]

theorem pmc_fold_fail_note :
    ∀ (rs : List (Except (List Char) AIResult)) (k : Nat)
      (st : List Product × List (List Char)) (i : Nat) (e : List Char),
      rs[i]? = some (Except.error e) →
      failNote (k + i) e ∈ ((List.enumFrom k rs).foldl pmcStep st).2 := by
  intro rs
  induction rs with
  | nil => intro k st i e h; simp at h
  | cons r rs ih =>
    intro k st i e h
    cases i with
    | zero =>
      rw [List.getElem?_cons_zero] at h
      injection h with h
      subst h
      simp only [List.enumFrom, List.foldl_cons]
      obtain ⟨zs, hz⟩ :=
        pmc_fold_notes_append rs (k + 1) (pmcStep st (k, Except.error e))
      rw [hz]
      simp [pmcStep]
    | succ i' =>
      rw [List.getElem?_cons_succ] at h
      simp only [List.enumFrom, List.foldl_cons]
      have := ih (k + 1) (pmcStep st (k, r)) i' e h
      have harith : k + 1 + i' = k + (i' + 1) := by omega
      rwa [harith] at this

theorem joinSemicolon_infix :
    ∀ (notes : List (List Char)) (x : List Char), x ∈ notes →
      ∃ pre suf, joinSemicolon notes = pre ++ x ++ suf := by
  intro notes
  induction notes with
  | nil => intro x hx; exact absurd hx (List.not_mem_nil x)
  | cons n ns ih =>
    intro x hx
    cases ns with
    | nil =>
      rcases List.mem_cons.mp hx with rfl | hx'
      · exact ⟨[], [], by simp [joinSemicolon]⟩
      · exact absurd hx' (List.not_mem_nil x)
    | cons m ms =>
      rcases List.mem_cons.mp hx with rfl | hx'
      · exact ⟨[], "; ".data ++ joinSemicolon (m :: ms), by
          simp [joinSemicolon]⟩
      · obtain ⟨pre, suf, hps⟩ := ih x hx'
        refine ⟨n ++ "; ".data ++ pre, suf, ?_⟩
        show joinSemicolon (n :: m :: ms) = _
        rw [show joinSemicolon (n :: m :: ms) =
          n ++ "; ".data ++ joinSemicolon (m :: ms) from rfl, hps]
        simp [List.append_assoc]

theorem all_error_filterMap_nil
    {rs : List (Except (List Char) AIResult)}
    (h : ∀ r ∈ rs, ∃ e, r = Except.error e) :
    rs.filterMap okProducts = [] := by
  induction rs with
  | nil => rfl
  | cons r rest ih =>
    obtain ⟨e, he⟩ := h r (List.mem_cons_self r rest)
    subst he
    simp only [List.filterMap_cons, okProducts]
    exact ih (fun x hx => h x (List.mem_cons_of_mem _ hx))

/-- C4: a chunk failure never aborts the job — each failing chunk `i`
contributes the note `Chunk i+1: Processing failed - ...` (also visible as
a substring of the final `processingNotes`), the products of all successful
chunks are still collected and deduplicated, an all-failure run yields an
empty product list, and `processingNotes` is never empty. -/
theorem processMultipleChunks_fault_tolerant
    (results : List (Except (List Char) AIResult)) :
    (∀ i e, results[i]? = some (Except.error e) →
      failNote i e ∈ ((results.enum).foldl pmcStep ([], [])).2) ∧
    (processMultipleChunks results).products =
      removeDuplicateProducts ((results.filterMap okProducts).flatten) ∧
    (∀ i e, results[i]? = some (Except.error e) →
      ∃ pre suf, (processMultipleChunks results).summary.processingNotes =
        pre ++ failNote i e ++ suf) ∧
    ((∀ r ∈ results, ∃ e, r = Except.error e) →
      (processMultipleChunks results).products = []) ∧
    (processMultipleChunks results).summary.processingNotes ≠ [] := by
  have hfail : ∀ i e, results[i]? = some (Except.error e) →
      failNote i e ∈ ((results.enum).foldl pmcStep ([], [])).2 := by
    intro i e h
    have := pmc_fold_fail_note results 0 ([], []) i e h
    rwa [Nat.zero_add] at this
  have hprod : (processMultipleChunks results).products =
      removeDuplicateProducts ((results.filterMap okProducts).flatten) := by
    simp only [processMultipleChunks]
    rw [show (results.enum) = List.enumFrom 0 results from rfl,
      pmc_fold_products results 0 ([], []), List.nil_append]
  refine ⟨hfail, hprod, ?_, ?_, ?_⟩
  · intro i e h
    obtain ⟨pre, suf, hps⟩ :=
      joinSemicolon_infix _ (failNote i e) (hfail i e h)
    refine ⟨"Processed ".data ++ Nat.toDigits 10 results.length ++
      " chunks. ".data ++ pre, suf, ?_⟩
    simp only [processMultipleChunks]
    rw [hps]
    simp [List.append_assoc]
  · intro hall
    rw [hprod, all_error_filterMap_nil hall]
    rfl
  · simp only [processMultipleChunks]
    intro hcontra
    have h1 := congrArg List.length hcontra
    rw [List.length_append, List.length_append, List.length_append] at h1
    have : ("Processed ".data).length = 10 := by decide
    simp [this] at h1

theorem processMultipleChunks_fault_tolerant_witness :
    failNote 0 ("boom".data) ∈
      (([Except.error ("boom".data),
         Except.ok (⟨[], ⟨0, [], []⟩⟩ : AIResult)].enum).foldl
        pmcStep ([], [])).2 :=
  (processMultipleChunks_fault_tolerant
    [Except.error ("boom".data),
     Except.ok (⟨[], ⟨0, [], []⟩⟩ : AIResult)]).1 0 ("boom".data) rfl

/-! ### Format extractors (C3)

From the upload route: `extractFromExcel`, `extractFromPDF`,
`extractFromPowerPoint`.  The underlying libraries (`xlsx.read`,
`pdf-parse`, and the zip/XML scraping of the PowerPoint body, all wrapped
in the functions' `try` blocks) are modelled as `Except`-valued parameters;
buffers are byte lists. -/

/-- A parsed workbook: sheets of rows of cells, as produced by
`xlsx.utils.sheet_to_json(worksheet, {header: 1})`. -/
abbrev Workbook := List (List (List (List Char)))

/-- `row.join(' | ')`. -/
def joinBars : List (List Char) → List Char
  | [] => []
  | [x] => x
  | x :: xs => x ++ " | ".data ++ joinBars xs

/-- The text assembled from a workbook: every non-empty row becomes
`row.join(' | ') + '\n'`. -/
def excelText (wb : Workbook) : List Char :=
  (wb.map (fun sheet =>
    ((sheet.filter (fun row => row.length > 0)).map
      (fun row => joinBars row ++ ['\n'])).flatten)).flatten

/-- `extractFromExcel`: on a read failure it throws
`Excel extraction failed: ...`. -/
def extractFromExcel (xlsxRead : List Nat → Except (List Char) Workbook)
    (buffer : List Nat) : Except (List Char) (List Char) :=
  match xlsxRead buffer with
  | Except.ok wb => Except.ok (excelText wb)
  | Except.error e => Except.error ("Excel extraction failed: ".data ++ e)

/-- `extractFromPDF`: on a parse failure it throws
`PDF extraction failed: ...`. -/
def extractFromPDF (pdfParse : List Nat → Except (List Char) (List Char))
    (buffer : List Nat) : Except (List Char) (List Char) :=
  match pdfParse buffer with
  | Except.ok text => Except.ok text
  | Except.error e => Except.error ("PDF extraction failed: ".data ++ e)

/-- The placeholder returned when a PowerPoint yields no text. -/
def pptEmptyPlaceholder (n : Nat) : List Char :=
  "PowerPoint file processed: ".data ++
    (Nat.toDigits 10 n ++
      (" bytes\n      \nThis PowerPoint file appears to contain presentation content.\nThe file may include:\n- Product specifications\n- Pricing information  \n- Technical details\n- Images and diagrams\n\nPlease note: Some PowerPoint files may contain primarily visual content or complex formatting that makes text extraction challenging. Consider providing the information in a more text-friendly format like PDF or Word document for better AI processing.".data))

/-- The placeholder returned when PowerPoint extraction throws. -/
def pptErrorPlaceholder (n : Nat) (msg : List Char) : List Char :=
  "PowerPoint file upload detected: ".data ++
    (Nat.toDigits 10 n ++
      (" bytes\n    \nThis file appears to be a PowerPoint presentation that may contain:\n- Product information\n- Specifications\n- Pricing details\n- Technical documentation\n\nError during text extraction: ".data ++
        (msg ++
          "\n\nFor better results, please consider:\n1. Converting the PowerPoint to PDF format\n2. Copying the content to a Word document\n3. Providing the information in a structured Excel format\n\nThe AI will still attempt to process any available content, but manual review may be required.".data)))

/-- `extractFromPowerPoint`: the whole zip/XML extraction attempt is inside
a `try`; an empty outcome yields the informational placeholder and a thrown
error yields the diagnostic placeholder — the function itself never
throws. -/
def extractFromPowerPoint
    (attempt : List Nat → Except (List Char) (List Char))
    (buffer : List Nat) : List Char :=
  match attempt buffer with
  | Except.ok t => if t.length > 0 then t else pptEmptyPlaceholder buffer.length
  | Except.error e => pptErrorPlaceholder buffer.length e

theorem startsWith_self_append (n b : List Char) :
    startsWith n (n ++ b) = true := by
  induction n with
  | nil => rfl
  | cons a as ih => simp [startsWith, ih]

theorem containsSub_of_startsWith {n h : List Char}
    (hs : startsWith n h = true) : containsSub n h = true := by
  cases h with
  | nil =>
    cases n with
    | nil => rfl
    | cons a as => exact absurd hs (by simp [startsWith])
  | cons c rest => simp [containsSub, hs]

theorem containsSub_append_left (a : List Char) {n h : List Char}
    (hc : containsSub n h = true) : containsSub n (a ++ h) = true := by
  induction a with
  | nil => exact hc
  | cons c a' ih => simp [containsSub, ih]

theorem containsSub_self_append (m b : List Char) :
    containsSub m (m ++ b) = true :=
  containsSub_of_startsWith (startsWith_self_append m b)

/-- C3 (amended): only the slide-deck extractor never fails — when its
extraction attempt throws it returns the diagnostic placeholder, which
contains the byte length and the error message, and its result is always
non-empty; the spreadsheet and PDF extractors instead wrap the underlying
failure and rethrow it (`Excel extraction failed: ...` /
`PDF extraction failed: ...`), leaving the route's catch to record it. -/
theorem formatExtractors_failure_behavior
    (attempt : List Nat → Except (List Char) (List Char))
    (xlsxRead : List Nat → Except (List Char) Workbook)
    (pdfParse : List Nat → Except (List Char) (List Char))
    (buffer : List Nat) :
    (∀ e, attempt buffer = Except.error e →
      extractFromPowerPoint attempt buffer =
          pptErrorPlaceholder buffer.length e ∧
      containsSub (Nat.toDigits 10 buffer.length)
        (extractFromPowerPoint attempt buffer) = true ∧
      containsSub e (extractFromPowerPoint attempt buffer) = true) ∧
    (extractFromPowerPoint attempt buffer).length > 0 ∧
    (∀ e, xlsxRead buffer = Except.error e →
      extractFromExcel xlsxRead buffer =
        Except.error ("Excel extraction failed: ".data ++ e)) ∧
    (∀ e, pdfParse buffer = Except.error e →
      extractFromPDF pdfParse buffer =
        Except.error ("PDF extraction failed: ".data ++ e)) := by
  refine ⟨?_, ?_, ?_, ?_⟩
  · intro e he
    have heq : extractFromPowerPoint attempt buffer =
        pptErrorPlaceholder buffer.length e := by
      simp [extractFromPowerPoint, he]
    refine ⟨heq, ?_, ?_⟩
    · rw [heq]
      unfold pptErrorPlaceholder
      exact containsSub_append_left _ (containsSub_self_append _ _)
    · rw [heq]
      unfold pptErrorPlaceholder
      exact containsSub_append_left _ (containsSub_append_left _
        (containsSub_append_left _ (containsSub_self_append _ _)))
  · cases ha : attempt buffer with
    | ok t =>
      simp only [extractFromPowerPoint, ha]
      by_cases ht : t.length > 0
      · rwa [if_pos ht]
      · rw [if_neg ht]
        unfold pptEmptyPlaceholder
        rw [List.length_append]
        have : 0 < ("PowerPoint file processed: ".data).length := by decide
        omega
    | error e =>
      simp only [extractFromPowerPoint, ha]
      unfold pptErrorPlaceholder
      rw [List.length_append]
      have : 0 < ("PowerPoint file upload detected: ".data).length := by decide
      omega
  · intro e he
    simp [extractFromExcel, he]
  · intro e he
    simp [extractFromPDF, he]

/-- C3, as stated in the spec, is false: the spreadsheet extractor
propagates a wrapped exception on a failed read instead of returning a
placeholder text — here the underlying read of the empty buffer fails with
`bad file` and the extractor re-throws. -/
theorem extractFromExcel_throws_counterexample :
    extractFromExcel (fun _ => Except.error ("bad file".data)) [] =
      Except.error ("Excel extraction failed: bad file".data) := by
  simp [extractFromExcel]

theorem formatExtractors_failure_behavior_witness :
    extractFromPowerPoint (fun _ => Except.error ("boom".data)) [0, 1, 2] =
        pptErrorPlaceholder 3 ("boom".data) ∧
    containsSub ("boom".data)
      (extractFromPowerPoint (fun _ => Except.error ("boom".data))
        [0, 1, 2]) = true :=
  ⟨((formatExtractors_failure_behavior (fun _ => Except.error ("boom".data))
      (fun _ => Except.error []) (fun _ => Except.error [])
      [0, 1, 2]).1 ("boom".data) rfl).1,
   ((formatExtractors_failure_behavior (fun _ => Except.error ("boom".data))
      (fun _ => Except.error []) (fun _ => Except.error [])
      [0, 1, 2]).1 ("boom".data) rfl).2.2⟩

end Packgine

